import Mathlib

/-!
Shallow embedding of the CycloneDX component-graph builder
(`pkg/sbom/cyclonedx/marshal.go` of the scanned repository) and proofs of
the specification claims about it.

Go pointer graphs are modelled by an explicit heap: a `Heap` is a list of
`CompData` cells, a `*core.Component` is an index (`Nat`) into that heap and
a nil pointer is `none`.  Two components are the *same instance* exactly
when they are the same heap index.  Go's `map` iteration in
`marshalPackages`, whose order the language leaves unspecified, is modelled
by an explicit `order : List String` parameter that enumerates the keys of
the package map.  Recursion in `marshalPackage` is modelled with fuel; a
fuel-exhaustion outcome is `none`/`.fuelOut`, and we prove that the fuel
used by the top-level entry points always suffices.
-/

/-- A structured package identifier (`packageurl.PackageURL`). -/
structure PUrl where
  Typ : String := ""
  Namespace : String := ""
  Name : String := ""
  Version : String := ""
  Subpath : String := ""
  deriving DecidableEq, Repr

/-- A namespaced key/value pair (`core.Property`). -/
structure Property where
  Namespace : String := ""
  Name : String := ""
  Value : String := ""
  deriving DecidableEq, Repr

/-- A plain key/value pair (`ftypes.Property` of a passthrough component). -/
structure KV where
  Name : String := ""
  Value : String := ""
  deriving DecidableEq, Repr

/-- Layer provenance of a package (`ftypes.Layer`). -/
structure Layer where
  Digest : String := ""
  DiffID : String := ""
  deriving DecidableEq, Repr

/-- The identifier attached to a package (`ftypes.PkgIdentifier`). -/
structure PkgIdentifier where
  PURL : Option PUrl := none
  deriving DecidableEq, Repr

/-- One inventoried package (`ftypes.Package`, the fields the builder reads). -/
structure Package where
  ID : String := ""
  Name : String := ""
  Version : String := ""
  Identifier : PkgIdentifier := {}
  SrcName : String := ""
  SrcVersion : String := ""
  SrcRelease : String := ""
  SrcEpoch : Int := 0
  Modularitylabel : String := ""
  FilePath : String := ""
  Layer : Layer := {}
  Digest : String := ""
  Maintainer : String := ""
  Licenses : List String := []
  DependsOn : List String := []
  Indirect : Bool := false
  deriving DecidableEq, Repr

/-- A vulnerability match record (`types.DetectedVulnerability`), carried
opaquely; only the key fields are modelled. -/
structure DetectedVulnerability where
  VulnerabilityID : String := ""
  PkgID : String := ""
  PkgName : String := ""
  InstalledVersion : String := ""
  deriving DecidableEq, Repr

/-- Detected operating system of the artifact (`ftypes.OS`). -/
structure OS where
  Family : String := ""
  Name : String := ""
  deriving DecidableEq, Repr

/-- Artifact-level metadata of a report (`types.Metadata`). -/
structure Metadata where
  Size : Int := 0
  OS : Option OS := none
  ImageID : String := ""
  DiffIDs : List String := []
  RepoTags : List String := []
  RepoDigests : List String := []
  deriving DecidableEq, Repr

/-- One scanned target (`types.Result`; `Type` is spelled `Typ`). -/
structure Result where
  Target : String := ""
  Class : String := ""
  Typ : String := ""
  Packages : List Package := []
  Vulnerabilities : List DetectedVulnerability := []
  deriving DecidableEq, Repr

/-- The metadata component of a passthrough SBOM (`ftypes.Component`). -/
structure FtypesComponent where
  Typ : String := ""
  Name : String := ""
  Group : String := ""
  PackageURL : String := ""
  Properties : List KV := []
  deriving DecidableEq, Repr

/-- The piece of a passthrough CycloneDX document the builder reads
(`r.CycloneDX.Metadata.Component`). -/
structure CycloneDXMeta where
  Component : FtypesComponent := {}
  deriving DecidableEq, Repr

/-- One scan's output (`types.Report`). -/
structure Report where
  SchemaVersion : Int := 0
  ArtifactName : String := ""
  ArtifactType : String := ""
  Metadata : Metadata := {}
  CycloneDX : Option CycloneDXMeta := none
  Results : List Result := []
  deriving DecidableEq, Repr

/-- A component-graph node (`core.Component`).  `Components` holds the child
references: heap indices, with `none` for a nil pointer. -/
structure CompData where
  Typ : String := ""
  Name : String := ""
  Group : String := ""
  Version : String := ""
  PackageURL : Option PUrl := none
  Supplier : String := ""
  Licenses : List String := []
  Hashes : List String := []
  Properties : List Property := []
  Vulnerabilities : List DetectedVulnerability := []
  Components : List (Option Nat) := []
  deriving DecidableEq, Repr

/-- The heap of allocated component nodes; an index is a `*core.Component`. -/
abbrev Heap := List CompData

/-- The per-root memo map from raw package ID to component reference. -/
abbrev Memo := List (String × Nat)

-- Property-name constants from the source file.
def PropertySchemaVersion : String := "SchemaVersion"
def PropertyType : String := "Type"
def PropertyClass : String := "Class"
def PropertySize : String := "Size"
def PropertyImageID : String := "ImageID"
def PropertyRepoDigest : String := "RepoDigest"
def PropertyDiffID : String := "DiffID"
def PropertyRepoTag : String := "RepoTag"
def PropertyPkgID : String := "PkgID"
def PropertyPkgType : String := "PkgType"
def PropertySrcName : String := "SrcName"
def PropertySrcVersion : String := "SrcVersion"
def PropertySrcRelease : String := "SrcRelease"
def PropertySrcEpoch : String := "SrcEpoch"
def PropertyModularitylabel : String := "Modularitylabel"
def PropertyFilePath : String := "FilePath"
def PropertyLayerDigest : String := "LayerDigest"
def PropertyLayerDiffID : String := "LayerDiffID"

-- `ftypes` target-type and class constants.
def NodePkg : String := "node-pkg"
def PythonPkg : String := "python-pkg"
def GemSpec : String := "gemspec"
def Jar : String := "jar"
def CondaPkg : String := "conda-pkg"
def ClassOSPkg : String := "os-pkgs"
def ClassLangPkg : String := "lang-pkgs"
def ArtifactContainerImage : String := "container_image"
def ArtifactVM : String := "vm"
def ArtifactFilesystem : String := "filesystem"
def ArtifactRepository : String := "repository"
def ArtifactCycloneDX : String := "cyclonedx"

-- `cdx.ComponentType` constants (a string-typed enum in Go).
def ComponentTypeContainer : String := "container"
def ComponentTypeOS : String := "operating-system"
def ComponentTypeApplication : String := "application"
def ComponentTypeLibrary : String := "library"

-- `packageurl` ecosystem-type constants.
def TypeMaven : String := "maven"
def TypeNPM : String := "npm"

/-- Modelled from the spec: `core.Namespace`, the reserved property-namespace
string of this tool, is not under src; its exact value is irrelevant
here, only that passthrough property names are re-scoped under it. -/
def coreNamespace : String := "aquasecurity:trivy:"

/-- Modelled from the spec: `utils.FormatVersion` is not under src; the spec
says a package's stable ID is derived from name+version when no natural ID
exists, so the version component of that fallback ID is the raw version. -/
def FormatVersion (pkg : Package) : String :=
  pkg.Version

/-- Modelled from the spec: `ftypes.Packages.ParentDeps` is not under src;
the spec says: compute, for every package ID, the set of package IDs that
declare it as a dependency (one pass over the `DependsOn` edges). -/
def ParentDeps (pkgs : List Package) (id : String) : List String :=
  (pkgs.filter (fun q => q.DependsOn.contains id)).map (fun q => q.ID)

/-- `filterProperties` from the source: keep a property unless its value is
empty or it is the source-epoch property with value "0". -/
def filterProperties (props : List Property) : List Property :=
  props.filter (fun property =>
    !(property.Value = "" || (property.Name = PropertySrcEpoch && property.Value = "0")))

/-- The local `Package` wrapper struct of the marshaler: the raw package
plus the result's target type, the report metadata and the matched
vulnerabilities. -/
structure WPackage where
  Pkg : Package
  Typ : String := ""
  Metadata : Metadata := {}
  Vulnerabilities : List DetectedVulnerability := []
  deriving DecidableEq, Repr

/-- Modelled from the spec: `purl.WithPath` is not under src; the spec says
the component carries the raw identifier extended with the package's file
path when relevant. -/
def WithPath (p : Option PUrl) (fp : String) : Option PUrl :=
  match p with
  | none => none
  | some u => some { u with Subpath := if fp = "" then u.Subpath else fp }

/-- `pkgComponent` from the source: build the library component of one
package.  (In the source it returns `(*core.Component, error)` but every
path returns a non-nil component and a nil error; the `Except` wrapper
`pkgComponentE` below restores the Go signature.) -/
def pkgComponent (pkg : WPackage) : CompData :=
  let name := pkg.Pkg.Name
  let version := pkg.Pkg.Version
  let group := ""
  let nvg : String × String × String :=
    match pkg.Pkg.Identifier.PURL with
    | some pu =>
      if pu.Typ = TypeMaven || pu.Typ = TypeNPM then
        (pu.Name, pu.Version, pu.Namespace)
      else
        (name, pu.Version, group)
    | none => (name, version, group)
  let properties : List Property :=
    [ { Name := PropertyPkgID, Value := pkg.Pkg.ID },
      { Name := PropertyPkgType, Value := pkg.Typ },
      { Name := PropertyFilePath, Value := pkg.Pkg.FilePath },
      { Name := PropertySrcName, Value := pkg.Pkg.SrcName },
      { Name := PropertySrcVersion, Value := pkg.Pkg.SrcVersion },
      { Name := PropertySrcRelease, Value := pkg.Pkg.SrcRelease },
      { Name := PropertySrcEpoch, Value := toString pkg.Pkg.SrcEpoch },
      { Name := PropertyModularitylabel, Value := pkg.Pkg.Modularitylabel },
      { Name := PropertyLayerDigest, Value := pkg.Pkg.Layer.Digest },
      { Name := PropertyLayerDiffID, Value := pkg.Pkg.Layer.DiffID } ]
  { Typ := ComponentTypeLibrary
    Name := nvg.1
    Group := nvg.2.2
    Version := nvg.2.1
    PackageURL := WithPath pkg.Pkg.Identifier.PURL pkg.Pkg.FilePath
    Supplier := pkg.Pkg.Maintainer
    Licenses := pkg.Pkg.Licenses
    Hashes := if pkg.Pkg.Digest = "" then [] else [pkg.Pkg.Digest]
    Properties := filterProperties properties
    Vulnerabilities := pkg.Vulnerabilities
    Components := [] }

/-- The Go signature of `pkgComponent`: a possibly-nil component or an
error.  Every path of the source returns `ok` with a component. -/
def pkgComponentE (pkg : WPackage) : Except String (Option CompData) :=
  Except.ok (some (pkgComponent pkg))

/-- The normalized package-map key used by `marshalPackages`:
`lo.Ternary(pkg.ID == "", name@version, pkg.ID)`. -/
def pkgKey (pkg : Package) : String :=
  if pkg.ID = "" then pkg.Name ++ "@" ++ FormatVersion pkg else pkg.ID

/-- The vulnerability grouping key of `marshalPackages`:
`lo.Ternary(v.PkgID == "", name@installed, v.PkgID)`. -/
def vulnKey (v : DetectedVulnerability) : String :=
  if v.PkgID = "" then v.PkgName ++ "@" ++ v.InstalledVersion else v.PkgID

/-- Go-map assignment on an association list: overwrite the binding of `k`
if present, append it otherwise. -/
def upsert (m : List (String × WPackage)) (k : String) (v : WPackage) :
    List (String × WPackage) :=
  match m with
  | [] => [(k, v)]
  | (k', v') :: rest => if k' = k then (k, v) :: rest else (k', v') :: upsert rest k v

/-- The package map `pkgs` built in `marshalPackages` via `lo.SliceToMap`:
normalized key to wrapped package, later entries overwriting earlier ones. -/
def pkgMapOf (metadata : Metadata) (result : Result) : List (String × WPackage) :=
  result.Packages.foldl
    (fun m pkg =>
      let pkgID := pkgKey pkg
      upsert m pkgID
        { Pkg := pkg
          Typ := result.Typ
          Metadata := metadata
          Vulnerabilities := result.Vulnerabilities.filter (fun v => vulnKey v = pkgID) })
    []

/-- Go's `component.Components = append(component.Components, child)` through
a pointer: mutate the heap cell at `ref`. -/
def appendChild (heap : Heap) (ref : Nat) (child : Option Nat) : Heap :=
  match heap.get? ref with
  | some c => heap.set ref { c with Components := c.Components ++ [child] }
  | none => heap

/-- Outcome of one `marshalPackage` call: fuel exhaustion (never reached by
the wrappers below), a conversion error, or a possibly-nil component
reference together with the updated memo map and heap. -/
inductive MPRes where
  | fuelOut
  | fail (msg : String)
  | ok (ref : Option Nat) (memo : Memo) (heap : Heap)
  deriving DecidableEq, Repr

/-- Outcome of the dependency loop inside `marshalPackage`. -/
inductive MDRes where
  | fuelOut
  | fail (msg : String)
  | ok (memo : Memo) (heap : Heap)
  deriving DecidableEq, Repr

/-- The conversion function `pkgComponent` as a parameter, so that the
failure policy of the surrounding control flow can be stated; the shipped
code always uses `pkgComponentE`. -/
abbrev Conv := WPackage → Except String (Option CompData)

/-- The `for _, dep := range pkg.DependsOn` loop of `marshalPackage`, with
the recursive call `mp` passed in: skip dangling references, recurse on
resolved ones, append each returned child pointer to the cell at `ref`. -/
def marshalDepsGo (mp : WPackage → List (String × WPackage) → Memo → Heap → MPRes) :
    List String → Nat → List (String × WPackage) → Memo → Heap → MDRes
  | [], _, _, memo, heap => .ok memo heap
  | dep :: rest, ref, pkgs, memo, heap =>
    match pkgs.lookup dep with
    | none => marshalDepsGo mp rest ref pkgs memo heap
    | some childPkg =>
      match mp childPkg pkgs memo heap with
      | .fuelOut => .fuelOut
      | .fail msg => .fail msg
      | .ok child memo' heap' =>
        marshalDepsGo mp rest ref pkgs memo' (appendChild heap' ref child)

/-- `marshalPackage` from the source: on a memo hit return the registered
reference; otherwise convert the package, register its fresh node in the
memo map *before* recursing, then walk `DependsOn`, appending each resolved
child reference to the node. -/
def marshalPackageF (conv : Conv) :
    Nat → WPackage → List (String × WPackage) → Memo → Heap → MPRes
  | 0, _, _, _, _ => .fuelOut
  | fuel' + 1, pkg, pkgs, memo, heap =>
    match memo.lookup pkg.Pkg.ID with
    | some r => .ok (some r) memo heap
    | none =>
      match conv pkg with
      | .error msg => .fail ("failed to parse pkg: " ++ msg)
      | .ok none => .ok none memo heap
      | .ok (some c) =>
        let ref := heap.length
        let heap' := heap ++ [c]
        let memo' := (pkg.Pkg.ID, ref) :: memo
        match marshalDepsGo (marshalPackageF conv fuel') pkg.Pkg.DependsOn ref pkgs memo' heap' with
        | .fuelOut => .fuelOut
        | .fail msg => .fail msg
        | .ok memo'' heap'' => .ok (some ref) memo'' heap''

/-- The dependency loop at a given fuel level. -/
def marshalDepsF (conv : Conv) (fuel : Nat) :
    List String → Nat → List (String × WPackage) → Memo → Heap → MDRes :=
  marshalDepsGo (marshalPackageF conv fuel)

/-- The `for _, pkg := range pkgs` loop of `marshalPackages`, iterating the
package map in the order given by `order`: skip indirect packages that have
a recorded parent, give every other package a *fresh* memo map, and collect
the resulting root references.  A conversion error makes the whole function
return `nil, nil`, modelled as `([], heap)`. -/
def mpLoop (conv : Conv) (fuel : Nat) (pkgs : List (String × WPackage))
    (parents : String → List String) :
    List String → List (Option Nat) → Heap → Option (List (Option Nat) × Heap)
  | [], acc, heap => some (acc, heap)
  | k :: rest, acc, heap =>
    match pkgs.lookup k with
    | none => mpLoop conv fuel pkgs parents rest acc heap
    | some pkg =>
      if pkg.Pkg.Indirect && !(parents pkg.Pkg.ID).isEmpty then
        mpLoop conv fuel pkgs parents rest acc heap
      else
        match marshalPackageF conv fuel pkg pkgs [] heap with
        | .fuelOut => none
        | .fail _ => some ([], heap)
        | .ok component _ heap' =>
          match component with
          | some r => mpLoop conv fuel pkgs parents rest (acc ++ [some r]) heap'
          | none => mpLoop conv fuel pkgs parents rest acc heap'

/-- `marshalPackages` from the source, parameterized by the conversion
function and the map iteration order. -/
def marshalPackagesF (conv : Conv) (fuel : Nat) (metadata : Metadata)
    (result : Result) (order : List String) (heap : Heap) :
    Option (List (Option Nat) × Heap) :=
  mpLoop conv fuel (pkgMapOf metadata result) (ParentDeps result.Packages) order [] heap

/-- `marshalPackages` with the shipped conversion function and enough fuel
(proved sufficient below) for the recursion to run to completion. -/
def marshalPackages (metadata : Metadata) (result : Result) (order : List String)
    (heap : Heap) : Option (List (Option Nat) × Heap) :=
  marshalPackagesF pkgComponentE (result.Packages.length + 1) metadata result order heap

/-- `resultComponent` from the source: the intermediate node of one result,
an Operating-System node for OS-package results (named from the detected OS
when present) or an Application node for language-package results. -/
def resultComponent (r : Result) (osFound : Option OS) : CompData :=
  let component : CompData :=
    { Name := r.Target
      Properties :=
        [ { Name := PropertyType, Value := r.Typ },
          { Name := PropertyClass, Value := r.Class } ] }
  if r.Class = ClassOSPkg then
    match osFound with
    | some os =>
      { component with Name := os.Family, Version := os.Name, Typ := ComponentTypeOS }
    | none => { component with Typ := ComponentTypeOS }
  else if r.Class = ClassLangPkg then
    { component with Typ := ComponentTypeApplication }
  else component

/-- `marshalResult` from the source: floating language-package results
contribute their package components directly; OS- and language-classified
results contribute one intermediate node holding them; anything else
contributes nothing.  The returned list holds the references contributed to
the root. -/
def marshalResult (metadata : Metadata) (result : Result) (order : List String)
    (heap : Heap) : Option (List (Option Nat) × Heap) :=
  if result.Typ = NodePkg || result.Typ = PythonPkg || result.Typ = GemSpec ||
      result.Typ = Jar || result.Typ = CondaPkg then
    marshalPackages metadata result order heap
  else if result.Class = ClassOSPkg || result.Class = ClassLangPkg then
    match marshalPackages metadata result order heap with
    | none => none
    | some (components, heap') =>
      let appComponent := { resultComponent result metadata.OS with Components := components }
      some ([some heap'.length], heap' ++ [appComponent])
  else some ([], heap)

/-- `toCoreComponent` from the source: convert the metadata component of a
passthrough document, re-scoping properties already carrying this tool's
namespace and parsing its package identifier with the external purl parser
`fromStr` (`purl.FromString` is an external collaborator, passed as a
parameter). -/
def toCoreComponent (fromStr : String → Except String PUrl) (c : FtypesComponent) :
    Except String CompData :=
  let props : List Property :=
    c.Properties.map (fun prop =>
      if prop.Name.startsWith coreNamespace then
        { Namespace := coreNamespace
          Name := prop.Name.drop coreNamespace.length
          Value := prop.Value }
      else
        { Namespace := "", Name := prop.Name, Value := prop.Value })
  match (if c.PackageURL = "" then Except.ok none else (fromStr c.PackageURL).map some) with
  | .error e => .error ("failed to parse purl: " ++ e)
  | .ok p =>
    .ok { Name := c.Name
          Group := c.Group
          PackageURL := p
          Typ := c.Typ
          Properties := props }

/-- `rootComponent` from the source: build the artifact-level root.  The
external identifier builder `purl.New` for container images is the
parameter `purlNew`; a passthrough artifact short-circuits into
`toCoreComponent`.  Dereferencing a missing `CycloneDX` field would be a
nil-pointer panic in Go, modelled as an error. -/
def rootComponent (purlNew : Metadata → Except String (Option PUrl))
    (fromStr : String → Except String PUrl) (r : Report) : Except String CompData :=
  if r.ArtifactType = ArtifactCycloneDX then
    match r.CycloneDX with
    | none => .error "nil pointer dereference"
    | some cd => toCoreComponent fromStr cd.Component
  else
    let root : CompData := { Name := r.ArtifactName }
    let props : List Property :=
      [ { Name := PropertySchemaVersion, Value := toString r.SchemaVersion } ]
    let step : Except String (CompData × List Property) :=
      if r.ArtifactType = ArtifactContainerImage then
        let props := props ++ [{ Name := PropertyImageID, Value := r.Metadata.ImageID }]
        match purlNew r.Metadata with
        | .error e => .error ("failed to new package url for oci: " ++ e)
        | .ok p => .ok ({ root with Typ := ComponentTypeContainer, PackageURL := p }, props)
      else if r.ArtifactType = ArtifactVM then
        .ok ({ root with Typ := ComponentTypeContainer }, props)
      else if r.ArtifactType = ArtifactFilesystem || r.ArtifactType = ArtifactRepository then
        .ok ({ root with Typ := ComponentTypeApplication }, props)
      else .ok (root, props)
    match step with
    | .error e => .error e
    | .ok (root, props) =>
      let props := props ++
        (if r.Metadata.Size ≠ 0 then
          [{ Name := PropertySize, Value := toString r.Metadata.Size }] else [])
      let props := props ++
        (if r.Metadata.RepoDigests ≠ [] then
          [{ Name := PropertyRepoDigest, Value := String.intercalate "," r.Metadata.RepoDigests }]
        else [])
      let props := props ++
        (if r.Metadata.DiffIDs ≠ [] then
          [{ Name := PropertyDiffID, Value := String.intercalate "," r.Metadata.DiffIDs }]
        else [])
      let props := props ++
        (if r.Metadata.RepoTags ≠ [] then
          [{ Name := PropertyRepoTag, Value := String.intercalate "," r.Metadata.RepoTags }]
        else [])
      .ok { root with Properties := filterProperties props }

/-- The `for _, result := range r.Results` loop of `MarshalReport`:
thread the heap through the results and concatenate their contributions.
`orders` gives, per result index, the package-map iteration order. -/
def goResults (metadata : Metadata) :
    List Result → (Nat → List String) → Nat → Heap → Option (List (Option Nat) × Heap)
  | [], _, _, heap => some ([], heap)
  | res :: rest, orders, i, heap =>
    match marshalResult metadata res (orders i) heap with
    | none => none
    | some (cs, heap') =>
      match goResults metadata rest orders (i + 1) heap' with
      | none => none
      | some (cs', heap'') => some (cs ++ cs', heap'')

/-- `MarshalReport` from the source: build the root, then append every
result's contribution to its children, in result order. -/
def MarshalReport (purlNew : Metadata → Except String (Option PUrl))
    (fromStr : String → Except String PUrl) (r : Report)
    (orders : Nat → List String) : Except String (CompData × Heap) :=
  match rootComponent purlNew fromStr r with
  | .error e => .error e
  | .ok root =>
    match goResults r.Metadata r.Results orders 0 [] with
    | none => .error "insufficient fuel"
    | some (comps, heap) =>
      .ok ({ root with Components := root.Components ++ comps }, heap)

/-! ## Property filtering (claim C5) -/

/-- Specification-side keep-predicate, written from the claim's words: keep
an entry iff its value is non-empty, additionally excluding the
source-epoch property when its value is exactly "0". -/
def keepProperty (p : Property) : Bool :=
  p.Value ≠ "" && !(p.Name = PropertySrcEpoch && p.Value = "0")


/-! ## Component identity (claim C6) -/

/-- The Maven package of the claim's identity law: group `com.acme`,
artifact `lib`, resolved version `2.3.0`. -/
def mavenPkg : WPackage :=
  { Pkg :=
      { ID := "com.acme:lib"
        Name := "com.acme:lib"
        Version := "2.3.0"
        Identifier :=
          { PURL := some
              { Typ := TypeMaven
                Namespace := "com.acme"
                Name := "lib"
                Version := "2.3.0" } } } }


/-! ## Observations on built graphs -/

/-- The package ID recorded on a component cell: the value of its `PkgID`
property (present exactly when the originating package had a non-empty ID,
since empty values are filtered). -/
def pkgIdOf (c : CompData) : Option String :=
  (c.Properties.find? (fun p => p.Name = PropertyPkgID)).map (fun p => p.Value)

/-- The package ID recorded at a heap reference. -/
def refId (heap : Heap) (r : Nat) : Option String :=
  (heap.get? r).bind pkgIdOf

/-- How many component instances for package ID `pid` a heap contains. -/
def instancesFor (heap : Heap) (pid : String) : Nat :=
  (heap.filter (fun c => pkgIdOf c = some pid)).length

/-- The children list of the cell at `r` (empty for a dangling reference). -/
def childrenOf (heap : Heap) (r : Nat) : List (Option Nat) :=
  ((heap.get? r).map (fun c => c.Components)).getD []

/-! ## Concrete scenarios used by counterexamples and witnesses -/

/-- Trivial stand-ins for the external purl collaborators in concrete runs. -/
def purlNewNone : Metadata → Except String (Option PUrl) := fun _ => Except.ok none

/-- A purl parser that always fails, for concrete runs that never parse. -/
def fromStrFail : String → Except String PUrl := fun _ => Except.error "malformed purl"

/-- Package `a`: direct, depending on `p`. -/
def pkgA : Package := { ID := "a", Name := "a", Version := "1", DependsOn := ["p"] }

/-- Package `b`: direct, depending on `p`. -/
def pkgB : Package := { ID := "b", Name := "b", Version := "1", DependsOn := ["p"] }

/-- Package `p`: indirect, shared dependency of `a` and `b`. -/
def pkgP : Package := { ID := "p", Name := "p", Version := "1", Indirect := true }

/-- A language-package result whose packages are `a`, `b` and the shared
dependency `p`. -/
def sharedDepResult : Result :=
  { Target := "app/lock", Class := ClassLangPkg, Typ := "npm", Packages := [pkgA, pkgB, pkgP] }

/-- A report holding only `sharedDepResult`. -/
def sharedDepReport : Report :=
  { SchemaVersion := 2
    ArtifactName := "art"
    ArtifactType := ArtifactFilesystem
    Results := [sharedDepResult] }

/-- The run of `MarshalReport` on `sharedDepReport` (iteration order
`a`, `b`, `p`). -/
def sharedDepRun : Except String (CompData × Heap) :=
  MarshalReport purlNewNone fromStrFail sharedDepReport (fun _ => ["a", "b", "p"])

/-- The heap built by `sharedDepRun`. -/
def sharedDepHeap : Heap := (sharedDepRun.toOption.map (fun out => out.2)).getD []


/-! ## Invariants and specification bundles for the graph lemmas -/

/-- `m'` preserves every binding of `m`. -/
def MemoSub (m m' : Memo) : Prop :=
  ∀ k r, List.lookup k m = some r → List.lookup k m' = some r

/-- Every reference registered in the memo map is at least `n`. -/
def MemoGE (n : Nat) (m : Memo) : Prop :=
  ∀ k r, List.lookup k m = some r → n ≤ r

/-- Memo well-formedness: every binding points to a live cell carrying the
bound package ID. -/
def MemoOK (m : Memo) (heap : Heap) : Prop :=
  ∀ k r, List.lookup k m = some r → r < heap.length ∧ refId heap r = some k

/-- Every child reference stored anywhere in the heap is a valid index. -/
def HeapClosed (heap : Heap) : Prop :=
  ∀ c ∈ heap, ∀ x ∈ c.Components, ∀ rq : Nat, x = some rq → rq < heap.length

/-- Every package stored in the package map has a non-empty raw ID. -/
def GoodPkgs (pkgs : List (String × WPackage)) : Prop :=
  ∀ kv ∈ pkgs, kv.2.Pkg.ID ≠ ""

/-- Fuel measure: the number of map entries not yet registered in the memo. -/
def unvisited (pkgs : List (String × WPackage)) (memo : Memo) : Nat :=
  pkgs.countP (fun kv => (List.lookup kv.2.Pkg.ID memo).isNone)

/-- What one successful `marshalPackage` call guarantees: the heap only
grows, cells below the entry length are untouched, the memo map only grows
and stays well-formed, the heap stays closed, and the returned reference
carries the package's ID; references never go below a bound respected by
the incoming memo. -/
structure MPOut (pkg : WPackage) (memo : Memo) (heap : Heap)
    (r : Nat) (memo' : Memo) (heap' : Heap) : Prop where
  hlen : heap.length ≤ heap'.length
  pres : ∀ i, i < heap.length → heap'.get? i = heap.get? i
  msub : MemoSub memo memo'
  mok : MemoOK memo' heap'
  hc : HeapClosed heap'
  rlt : r < heap'.length
  rid : refId heap' r = some pkg.Pkg.ID
  rge : ∀ n, n ≤ heap.length → MemoGE n memo → n ≤ r ∧ MemoGE n memo'

/-- What one successful dependency loop guarantees: cells other than the
parent are untouched below the entry length, the parent cell gains exactly
the child references `tail`, every resolvable dependency contributes a
child carrying its ID, and fresh references respect lower bounds. -/
structure MDOut (deps : List String) (pkgs : List (String × WPackage))
    (ref : Nat) (memo : Memo) (heap : Heap)
    (memo' : Memo) (heap' : Heap) (tail : List (Option Nat)) : Prop where
  hlen : heap.length ≤ heap'.length
  presOff : ∀ i, i < heap.length → i ≠ ref → heap'.get? i = heap.get? i
  refCell : ∀ c, heap.get? ref = some c →
    heap'.get? ref = some { c with Components := c.Components ++ tail }
  msub : MemoSub memo memo'
  mok : MemoOK memo' heap'
  hc : HeapClosed heap'
  depsMem : ∀ d q, d ∈ deps → pkgs.lookup d = some q →
    ∃ rq, (some rq) ∈ tail ∧ refId heap' rq = some q.Pkg.ID
  tailge : ∀ n, n ≤ heap.length → MemoGE n memo →
    (∀ rq : Nat, (some rq) ∈ tail → n ≤ rq) ∧ MemoGE n memo'

/-- The candidate-root function that `mpLoop` realizes on each iteration
key: `none` when the key misses the map or the package is skipped as an
indirect dependency with a recorded parent, otherwise the package's ID. -/
def rootCand (pkgs : List (String × WPackage)) (parents : String → List String)
    (k : String) : Option (Option String) :=
  match pkgs.lookup k with
  | none => none
  | some pkg =>
    if pkg.Pkg.Indirect && !(parents pkg.Pkg.ID).isEmpty then none
    else some (some pkg.Pkg.ID)

/-- Well-formed package inventory of a result: non-empty, pairwise distinct
raw IDs. -/
def IDsOK (res : Result) : Prop :=
  (∀ p ∈ res.Packages, p.ID ≠ "") ∧ (res.Packages.map Package.ID).Nodup

/-- The wrapped package that `marshalPackages` stores in its package map. -/
def wrapOf (metadata : Metadata) (result : Result) (pkg : Package) : WPackage :=
  { Pkg := pkg
    Typ := result.Typ
    Metadata := metadata
    Vulnerabilities := result.Vulnerabilities.filter (fun v => vulnKey v = pkgKey pkg) }

/-- Specification-side variant of the result loop of `MarshalReport`, written
from the claim's words: keep each result's contribution as its own list
instead of concatenating, so that "the root's children are the per-result
lists appended in result order" can be stated against it. -/
def perResultLists (metadata : Metadata) :
    List Result → (Nat → List String) → Nat → Heap →
    Option (List (List (Option Nat)) × Heap)
  | [], _, _, heap => some ([], heap)
  | res :: rest, orders, i, heap =>
    match marshalResult metadata res (orders i) heap with
    | none => none
    | some (cs, heap') =>
      match perResultLists metadata rest orders (i + 1) heap' with
      | none => none
      | some (ls, heap'') => some (cs :: ls, heap'')

/-! ## Further concrete scenarios -/

/-- Package `ca` of the two-package cycle: direct, depends on `cb`. -/
def pkgCA : Package := { ID := "ca", Name := "ca", Version := "1", DependsOn := ["cb"] }

/-- Package `cb` of the two-package cycle: direct, depends on `ca`. -/
def pkgCB : Package := { ID := "cb", Name := "cb", Version := "1", DependsOn := ["ca"] }

/-- The synthetic cyclic result of the claim: `ca` and `cb` depend on each
other and both are direct. -/
def cycleResult : Result :=
  { Target := "cyc", Class := ClassLangPkg, Typ := "npm", Packages := [pkgCA, pkgCB] }

/-- The forest built for the cyclic result (iteration order `ca`, `cb`). -/
def cycleRun : Option (List (Option Nat) × Heap) :=
  marshalPackages {} cycleResult ["ca", "cb"] []

/-- A package marked indirect whose only declared parent is itself. -/
def pkgSelf : Package :=
  { ID := "s", Name := "s", Version := "1", DependsOn := ["s"], Indirect := true }

/-- A result holding only the self-declared indirect package. -/
def selfLoopResult : Result :=
  { Target := "self", Class := ClassLangPkg, Typ := "npm", Packages := [pkgSelf] }

/-- Direct package `x` with no dependencies. -/
def pkgX : Package := { ID := "x", Name := "x", Version := "1" }

/-- Direct package `y` with no dependencies. -/
def pkgY : Package := { ID := "y", Name := "y", Version := "1" }

/-- A floating language-package result (`node-pkg`) with two direct
packages: it contributes its package components directly to the root. -/
def nodeResult : Result :=
  { Target := "nd", Class := ClassLangPkg, Typ := NodePkg, Packages := [pkgX, pkgY] }

/-- A report holding only `nodeResult`. -/
def nodeReport : Report :=
  { SchemaVersion := 2
    ArtifactName := "art"
    ArtifactType := ArtifactFilesystem
    Results := [nodeResult] }

/-- The run of `MarshalReport` on `nodeReport` with iteration order `x, y`. -/
def nodeRunXY : Except String (CompData × Heap) :=
  MarshalReport purlNewNone fromStrFail nodeReport (fun _ => ["x", "y"])

/-- The run of `MarshalReport` on `nodeReport` with iteration order `y, x`. -/
def nodeRunYX : Except String (CompData × Heap) :=
  MarshalReport purlNewNone fromStrFail nodeReport (fun _ => ["y", "x"])

/-- A conversion function that fails exactly on package ID `bad` and agrees
with the shipped `pkgComponent` elsewhere, exercising the failure path of
the builder's control flow. -/
def convFailOnBad : Conv := fun pkg =>
  if pkg.Pkg.ID = "bad" then Except.error "malformed package" else pkgComponentE pkg

/-- The package on which `convFailOnBad` fails. -/
def pkgBad : Package := { ID := "bad", Name := "bad", Version := "1" }

/-- A perfectly convertible package sharing a result with `pkgBad`. -/
def pkgGood : Package := { ID := "good", Name := "good", Version := "1" }

/-- A result holding the failing package and the convertible one. -/
def failResult : Result :=
  { Target := "f", Class := ClassLangPkg, Typ := "npm", Packages := [pkgBad, pkgGood] }

/-- The run of the package builder on `failResult` under `convFailOnBad`. -/
def failRun : Option (List (Option Nat) × Heap) :=
  marshalPackagesF convFailOnBad 3 {} failResult ["bad", "good"] []

/-- An identifier builder that always fails, for exercising the fatal path. -/
def purlNewFail : Metadata → Except String (Option PUrl) :=
  fun _ => Except.error "oci identifier failure"

/-- A container-image report with no results. -/
def containerReport : Report :=
  { SchemaVersion := 2
    ArtifactName := "img"
    ArtifactType := ArtifactContainerImage
    Results := [] }

/-- What it means for `r` to be the root component built for package `pkg`
in the output `extra` of the package loop entered at heap length `heapLo`:
the reference is fresh, carries the package's ID, its children are fresh
references, and every resolvable dependency appears among the children. -/
def RootOf (pkgs : List (String × WPackage)) (heapLo : Nat) (heap' : Heap)
    (pkg : WPackage) (extra : List (Option Nat)) (r : Nat) : Prop :=
  (some r) ∈ extra ∧ heapLo ≤ r ∧ r < heap'.length ∧
  refId heap' r = some pkg.Pkg.ID ∧
  (∀ rq : Nat, (some rq) ∈ childrenOf heap' r → heapLo ≤ rq ∧ rq < heap'.length) ∧
  (∀ d q, d ∈ pkg.Pkg.DependsOn → pkgs.lookup d = some q →
    ∃ rq, (some rq) ∈ childrenOf heap' r ∧ refId heap' rq = some q.Pkg.ID)

/-- The heap produced by `marshalPackages` on `sharedDepResult` in the
iteration order `a`, `b`, `p`: the roots of `a` (cell 0) and `b` (cell 2)
each point at their OWN copy of `p` (cells 1 and 3). -/
def sharedDepPkgHeap : Heap :=
  [ { pkgComponent (wrapOf {} sharedDepResult pkgA) with Components := [some 1] },
    pkgComponent (wrapOf {} sharedDepResult pkgP),
    { pkgComponent (wrapOf {} sharedDepResult pkgB) with Components := [some 3] },
    pkgComponent (wrapOf {} sharedDepResult pkgP) ]

/-! ## Theorems for the claims -/

/-- C5: for every ordered list of (name, value) properties,
`filterProperties` returns exactly the subsequence of entries whose value
is non-empty, excluding the source-epoch property with value exactly "0"
(so a source-epoch entry with value "5" is kept, having non-empty value and
a value different from "0"); being a filter, it preserves the relative
order of the kept entries, which form a sublist of the input. -/
theorem c5_filter_properties (props : List Property) :
    filterProperties props = props.filter keepProperty ∧
    (filterProperties props).Sublist props := by
  refine ⟨?_, List.filter_sublist _⟩
  unfold filterProperties
  refine List.filter_congr (fun x _ => ?_)
  unfold keepProperty
  by_cases h1 : x.Value = "" <;> by_cases h2 : x.Name = PropertySrcEpoch <;>
    by_cases h3 : x.Value = "0" <;> simp [h1, h2, h3]

/-- C6: with a structured identifier present, the built component's version
is the identifier's version; exactly for the Maven and npm ecosystems the
name is the identifier's artifact name and the group its namespace, while
for every other ecosystem the name stays the raw package name and the group
stays empty; without an identifier, version is the raw version and group is
empty.  In particular the claim's Maven package yields name "lib", group
"com.acme", version "2.3.0". -/
theorem c6_component_identity :
    (∀ pkg : WPackage, ∀ pu : PUrl, pkg.Pkg.Identifier.PURL = some pu →
      (pkgComponent pkg).Version = pu.Version ∧
      ((pu.Typ = TypeMaven ∨ pu.Typ = TypeNPM) →
        (pkgComponent pkg).Name = pu.Name ∧ (pkgComponent pkg).Group = pu.Namespace) ∧
      (¬(pu.Typ = TypeMaven ∨ pu.Typ = TypeNPM) →
        (pkgComponent pkg).Name = pkg.Pkg.Name ∧ (pkgComponent pkg).Group = "")) ∧
    (∀ pkg : WPackage, pkg.Pkg.Identifier.PURL = none →
      (pkgComponent pkg).Version = pkg.Pkg.Version ∧
      (pkgComponent pkg).Name = pkg.Pkg.Name ∧ (pkgComponent pkg).Group = "") ∧
    ((pkgComponent mavenPkg).Name = "lib" ∧
     (pkgComponent mavenPkg).Group = "com.acme" ∧
     (pkgComponent mavenPkg).Version = "2.3.0") := by
  refine ⟨?_, ?_, by decide⟩
  · intro pkg pu h
    by_cases ht : pu.Typ = TypeMaven ∨ pu.Typ = TypeNPM
    · have hb : (pu.Typ = TypeMaven || pu.Typ = TypeNPM) = true := by
        rcases ht with ht | ht <;> simp [ht]
      refine ⟨?_, fun _ => ⟨?_, ?_⟩, fun hc => absurd ht hc⟩ <;>
        simp [pkgComponent, h, hb]
    · have hb : (pu.Typ = TypeMaven || pu.Typ = TypeNPM) = false := by
        push_neg at ht
        simp [ht.1, ht.2]
      refine ⟨?_, fun hc => absurd hc ht, fun _ => ⟨?_, ?_⟩⟩ <;>
        simp [pkgComponent, h, hb]
  · intro pkg h
    refine ⟨?_, ?_, ?_⟩ <;> simp [pkgComponent, h]

/-- Witness for C6 at the claim's concrete Maven package. -/
theorem c6_component_identity_witness :
    (pkgComponent mavenPkg).Version = "2.3.0" ∧
    (pkgComponent mavenPkg).Name = "lib" ∧
    (pkgComponent mavenPkg).Group = "com.acme" := by
  have h := c6_component_identity.1 mavenPkg
    { Typ := TypeMaven, Namespace := "com.acme", Name := "lib", Version := "2.3.0" } rfl
  exact ⟨h.1, (h.2.1 (Or.inl rfl)).1, (h.2.1 (Or.inl rfl)).2⟩

/-- C1 counterexample: in `sharedDepReport`, package `p` is listed in the
result's package list and is depended upon by the two distinct direct
packages `a` and `b`, yet the graph built by `MarshalReport` contains TWO
component instances for `p` (heap cells 1 and 3), not exactly one: `a`'s
children hold cell 1 and `b`'s children hold cell 3, and these are
different instances. -/
theorem c1_counterexample :
    pkgA.Indirect = false ∧ pkgB.Indirect = false ∧ pkgA.ID ≠ pkgB.ID ∧
    pkgP.ID ∈ pkgA.DependsOn ∧ pkgP.ID ∈ pkgB.DependsOn ∧
    pkgP ∈ sharedDepResult.Packages ∧
    instancesFor sharedDepHeap "p" = 2 ∧
    refId sharedDepHeap 0 = some "a" ∧ childrenOf sharedDepHeap 0 = [some 1] ∧
    refId sharedDepHeap 2 = some "b" ∧ childrenOf sharedDepHeap 2 = [some 3] ∧
    refId sharedDepHeap 1 = some "p" ∧ refId sharedDepHeap 3 = some "p" ∧
    (1 : Nat) ≠ 3 := by
  decide

/-- C3 counterexample: `pkgSelf` is marked indirect and no OTHER package of
its result declares it in `DependsOn` (it only declares itself), so the
claim would make it a candidate root appearing at root level; the code
nevertheless excludes it, building an empty forest. -/
theorem c3_counterexample :
    pkgSelf.Indirect = true ∧
    selfLoopResult.Packages.filter
      (fun q => decide (q.ID ≠ pkgSelf.ID) && q.DependsOn.contains pkgSelf.ID) = [] ∧
    marshalPackages {} selfLoopResult ["s"] [] = some ([], []) := by
  decide

/-- C8 counterexample: `nodeReport` has exactly one result, but the root
component built by `MarshalReport` has two direct children (one per direct
package of the floating `node-pkg` result), not one subtree per result. -/
theorem c8_counterexample :
    nodeReport.Results.length = 1 ∧
    (nodeRunXY.toOption.map (fun out => out.1.Components.length)) = some 2 := by
  decide

/-- C9 counterexample: two invocations of `MarshalReport` on the very same
report, differing only in the package-map iteration order (both orders
enumerate exactly the keys of the result's package map), produce different
component graphs: the root's children appear in a different order. -/
theorem c9_counterexample :
    ((pkgMapOf nodeReport.Metadata nodeResult).map Prod.fst) = ["x", "y"] ∧
    ["x", "y"].Perm ((pkgMapOf nodeReport.Metadata nodeResult).map Prod.fst) ∧
    ["y", "x"].Perm ((pkgMapOf nodeReport.Metadata nodeResult).map Prod.fst) ∧
    nodeRunXY.toOption ≠ nodeRunYX.toOption ∧
    nodeRunXY.toOption.isSome = true ∧ nodeRunYX.toOption.isSome = true := by
  decide

/-- C4 counterexample: under a conversion function failing on the single
package `bad`, the whole forest of `failResult` comes back empty with no
error: the perfectly convertible package `good` is NOT built and returned,
contradicting the claim that only the offending package is skipped. -/
theorem c4_counterexample :
    ((pkgMapOf {} failResult).lookup "good").isSome = true ∧
    (((pkgMapOf {} failResult).lookup "good").map
      (fun w => (convFailOnBad w).isOk)) = some true ∧
    failRun = some ([], []) := by
  decide

/-- C10: a result whose package-ecosystem type is none of the five floating
language-package types and whose classification is neither OS-package nor
language-package contributes no components and reports no error: it is
silently dropped. -/
theorem c10_dropped_result (metadata : Metadata) (result : Result)
    (order : List String) (heap : Heap)
    (h1 : result.Typ ≠ NodePkg) (h2 : result.Typ ≠ PythonPkg)
    (h3 : result.Typ ≠ GemSpec) (h4 : result.Typ ≠ Jar) (h5 : result.Typ ≠ CondaPkg)
    (h6 : result.Class ≠ ClassOSPkg) (h7 : result.Class ≠ ClassLangPkg) :
    marshalResult metadata result order heap = some ([], heap) := by
  simp [marshalResult, h1, h2, h3, h4, h5, h6, h7]

/-- Witness for C10: a misconfiguration-style result (class `config`) is
dropped. -/
theorem c10_dropped_result_witness :
    marshalResult {} { Target := "cfg", Class := "config", Typ := "terraform" } [] [] =
      some ([], []) := by
  exact c10_dropped_result {} _ [] []
    (by decide) (by decide) (by decide) (by decide) (by decide) (by decide) (by decide)

/-- If some key of the iteration order resolves to a non-skipped package
whose conversion errors, the package loop returns the empty component list
(Go's `return nil, nil`), whatever was already built. -/
theorem mpLoop_err_drop (conv : Conv) (fuel : Nat)
    (pkgs : List (String × WPackage)) (parents : String → List String)
    (k : String) (wpkg : WPackage) (e : String)
    (hk : pkgs.lookup k = some wpkg)
    (hconv : conv wpkg = Except.error e)
    (hskip : (wpkg.Pkg.Indirect && !(parents wpkg.Pkg.ID).isEmpty) = false) :
    ∀ (order : List String) (acc : List (Option Nat)) (heap : Heap), k ∈ order →
      (mpLoop conv fuel pkgs parents order acc heap).isSome = true →
      (mpLoop conv fuel pkgs parents order acc heap).map Prod.fst = some [] := by
  intro order
  induction order with
  | nil => intro acc heap hmem; exact absurd hmem (List.not_mem_nil k)
  | cons k' rest ih =>
    intro acc heap hmem hsome
    have hpkgfail : ∀ memo heap₂,
        List.lookup wpkg.Pkg.ID memo = none →
        marshalPackageF conv fuel wpkg pkgs memo heap₂ = .fuelOut ∨
        ∃ msg, marshalPackageF conv fuel wpkg pkgs memo heap₂ = .fail msg := by
      intro memo heap₂ hnone
      match fuel with
      | 0 => exact Or.inl rfl
      | fuel' + 1 =>
        right
        refine ⟨"failed to parse pkg: " ++ e, ?_⟩
        simp [marshalPackageF, hnone, hconv]
    rw [mpLoop] at hsome ⊢
    rcases hlk : pkgs.lookup k' with _ | pkg
    · have hkrest : k ∈ rest := by
        rcases List.mem_cons.mp hmem with hkk | h
        · rw [← hkk] at hlk; rw [hk] at hlk; cases hlk
        · exact h
      simp only [hlk] at hsome ⊢
      exact ih acc heap hkrest hsome
    · simp only [hlk] at hsome ⊢
      by_cases hsk : (pkg.Pkg.Indirect && !(parents pkg.Pkg.ID).isEmpty) = true
      · have hkrest : k ∈ rest := by
          rcases List.mem_cons.mp hmem with hkk | h
          · exfalso
            rw [← hkk] at hlk; rw [hk] at hlk
            injection hlk with h2
            rw [h2] at hskip
            rw [hskip] at hsk
            cases hsk
          · exact h
        simp only [hsk, if_true] at hsome ⊢
        exact ih acc heap hkrest hsome
      · have hskF : (pkg.Pkg.Indirect && !(parents pkg.Pkg.ID).isEmpty) = false := by
          cases h : (pkg.Pkg.Indirect && !(parents pkg.Pkg.ID).isEmpty) with
          | true => exact absurd h hsk
          | false => rfl
        simp only [hskF, Bool.false_eq_true, if_false] at hsome ⊢
        cases hmp : marshalPackageF conv fuel pkg pkgs [] heap with
        | fuelOut => rw [hmp] at hsome; simp at hsome
        | fail msg => simp [hmp]
        | ok comp memo' heap' =>
          simp only [hmp] at hsome ⊢
          by_cases heq : k' = k
          · exfalso
            rw [heq] at hlk; rw [hk] at hlk
            injection hlk with h2
            rw [← h2] at hmp
            rcases hpkgfail [] heap rfl with hfo | ⟨msg, hfl⟩
            · rw [hfo] at hmp; cases hmp
            · rw [hfl] at hmp; cases hmp
          · have hkrest : k ∈ rest := by
              rcases List.mem_cons.mp hmem with hkk | h
              · exact absurd hkk.symm heq
              · exact h
            rcases comp with _ | r
            · exact ih acc heap' hkrest hsome
            · exact ih (acc ++ [some r]) heap' hkrest hsome

/-- C4 amended: when converting a candidate-root package of a result fails
with an error, `marshalPackages` does not skip just that package: it
returns an empty component list and no error, dropping every other
package's component from the output (Go's `return nil, nil`).  With the
shipped `pkgComponent`, conversion never fails, so neither behavior
occurs in practice. -/
theorem c4_amended (conv : Conv) (fuel : Nat) (metadata : Metadata) (result : Result)
    (order : List String) (heap0 : Heap) (k : String) (wpkg : WPackage) (e : String)
    (hk : (pkgMapOf metadata result).lookup k = some wpkg)
    (hconv : conv wpkg = Except.error e)
    (hmem : k ∈ order)
    (hskip : (wpkg.Pkg.Indirect &&
      !(ParentDeps result.Packages wpkg.Pkg.ID).isEmpty) = false)
    (hsome : (marshalPackagesF conv fuel metadata result order heap0).isSome = true) :
    (marshalPackagesF conv fuel metadata result order heap0).map Prod.fst = some [] := by
  unfold marshalPackagesF at hsome ⊢
  exact mpLoop_err_drop conv fuel (pkgMapOf metadata result) (ParentDeps result.Packages)
    k wpkg e hk hconv hskip order [] heap0 hmem hsome

/-- Witness for C4 amended: on `failResult` under `convFailOnBad`, the
whole forest is dropped. -/
theorem c4_amended_witness :
    (marshalPackagesF convFailOnBad 3 {} failResult ["bad", "good"] []).map Prod.fst =
      some [] := by
  exact c4_amended convFailOnBad 3 {} failResult ["bad", "good"] [] "bad"
    (wrapOf {} failResult pkgBad) "malformed package"
    (by decide) (by rfl) (by decide) (by decide) (by decide)

/-! ## List and heap utility lemmas -/

/-- A successful association-list lookup is a member. -/
theorem lookup_mem {β : Type} : ∀ {l : List (String × β)} {k : String} {v : β},
    List.lookup k l = some v → (k, v) ∈ l := by
  intro l
  induction l with
  | nil => intro k v h; cases h
  | cons kv rest ih =>
    intro k v h
    rcases kv with ⟨k1, v1⟩
    rw [List.lookup] at h
    by_cases hk : k = k1
    · subst hk
      simp at h
      subst h
      exact List.mem_cons_self _ _
    · have hb : (k == k1) = false := beq_eq_false_iff_ne.mpr hk
      rw [hb] at h
      exact List.mem_cons_of_mem _ (ih h)

/-- Reading below the original length is unaffected by appended cells. -/
theorem get?_append_left {heap : Heap} (cs : List CompData) {i : Nat}
    (h : i < heap.length) : (heap ++ cs).get? i = heap.get? i :=
  List.get?_append h

/-- `appendChild` never changes the heap's length. -/
theorem appendChild_length (heap : Heap) (ref : Nat) (child : Option Nat) :
    (appendChild heap ref child).length = heap.length := by
  unfold appendChild
  cases heap.get? ref <;> simp

/-- `appendChild` leaves every other cell unchanged. -/
theorem appendChild_get_ne (heap : Heap) (ref : Nat) (child : Option Nat)
    {i : Nat} (h : i ≠ ref) :
    (appendChild heap ref child).get? i = heap.get? i := by
  unfold appendChild
  cases heap.get? ref
  · rfl
  · exact List.get?_set_ne _ _ (Ne.symm h)

/-- `appendChild` appends exactly one child to the target cell. -/
theorem appendChild_get_self (heap : Heap) (ref : Nat) (child : Option Nat)
    {c : CompData} (h : heap.get? ref = some c) :
    (appendChild heap ref child).get? ref =
      some { c with Components := c.Components ++ [child] } := by
  have hlt : ref < heap.length := by
    by_contra hcon
    push_neg at hcon
    rw [List.get?_eq_none.mpr hcon] at h
    cases h
  unfold appendChild
  rw [h]
  exact List.get?_set_eq_of_lt _ hlt

/-- Appending cells never changes what existing references denote. -/
theorem refId_append {heap : Heap} (cs : List CompData) {i : Nat}
    (h : i < heap.length) : refId (heap ++ cs) i = refId heap i := by
  unfold refId
  rw [get?_append_left cs h]

/-- `appendChild` only touches a cell's children, so recorded package IDs
are unchanged at every reference. -/
theorem refId_appendChild (heap : Heap) (ref : Nat) (child : Option Nat) (i : Nat) :
    refId (appendChild heap ref child) i = refId heap i := by
  by_cases h : i = ref
  · subst h
    cases hc : heap.get? i with
    | none =>
      have hc' : heap[i]? = none := by rw [← List.get?_eq_getElem?]; exact hc
      simp [refId, appendChild, hc, hc']
    | some c =>
      unfold refId
      rw [appendChild_get_self heap i child hc, hc]
      rfl
  · unfold refId
    rw [appendChild_get_ne heap ref child h]

/-- The memo-extension relation is reflexive. -/
theorem memoSub_refl (m : Memo) : MemoSub m m := fun _ _ h => h

/-- The memo-extension relation is transitive. -/
theorem memoSub_trans {m1 m2 m3 : Memo} (h1 : MemoSub m1 m2) (h2 : MemoSub m2 m3) :
    MemoSub m1 m3 := fun k r h => h2 k r (h1 k r h)

/-- Registering an unregistered key preserves all existing bindings. -/
theorem memoSub_cons {m : Memo} {id : String} {r : Nat}
    (h : List.lookup id m = none) : MemoSub m ((id, r) :: m) := by
  intro k r' hk
  rw [List.lookup]
  by_cases heq : k = id
  · subst heq; rw [hk] at h; cases h
  · rw [beq_eq_false_iff_ne.mpr heq]
    exact hk

/-- The fuel measure never exceeds the number of map entries. -/
theorem unvisited_le (pkgs : List (String × WPackage)) (memo : Memo) :
    unvisited pkgs memo ≤ pkgs.length :=
  List.countP_le_length _

/-- Growing the memo can only shrink the fuel measure. -/
theorem unvisited_mono {pkgs : List (String × WPackage)} {memo memo' : Memo}
    (h : MemoSub memo memo') : unvisited pkgs memo' ≤ unvisited pkgs memo := by
  unfold unvisited
  refine List.countP_mono_left (fun kv _ hkv => ?_)
  rcases hl : List.lookup kv.2.Pkg.ID memo with _ | r
  · rfl
  · rw [h kv.2.Pkg.ID r hl] at hkv
    cases hkv

/-- Counting with a strictly smaller predicate at some member is strictly
smaller. -/
theorem countP_lt_of_mem {α : Type} {l : List α} {a : α} {p q : α → Bool}
    (ha : a ∈ l) (hpa : p a = false) (hqa : q a = true)
    (himp : ∀ x ∈ l, p x = true → q x = true) :
    l.countP p < l.countP q := by
  induction l with
  | nil => cases ha
  | cons b rest ih =>
    rw [List.countP_cons, List.countP_cons]
    have hrest : List.countP p rest ≤ List.countP q rest :=
      List.countP_mono_left (fun x hx => himp x (List.mem_cons_of_mem _ hx))
    rcases List.mem_cons.mp ha with rfl | hmem
    · rw [hpa, hqa]
      simpa using Nat.lt_succ_of_le hrest
    · have ihx := ih hmem (fun x hx => himp x (List.mem_cons_of_mem _ hx))
      by_cases hpb : p b = true
      · rw [hpb, himp b (List.mem_cons_self _ _) hpb]
        simpa using ihx
      · have hpb' : p b = false := by
          cases hb : p b
          · rfl
          · exact absurd hb hpb
        rw [hpb']
        simp only [if_false, Bool.false_eq_true, Nat.add_zero]
        rcases hqb : q b with _ | _
        · simpa using ihx
        · simp only [if_true]
          exact Nat.lt_of_lt_of_le ihx (Nat.le_succ _)

/-- Registering a map value that was not yet in the memo strictly decreases
the fuel measure. -/
theorem unvisited_insert_lt {pkgs : List (String × WPackage)} {memo : Memo}
    {pkg : WPackage} {k : String} {r : Nat}
    (hk : List.lookup k pkgs = some pkg)
    (hnone : List.lookup pkg.Pkg.ID memo = none) :
    unvisited pkgs ((pkg.Pkg.ID, r) :: memo) < unvisited pkgs memo := by
  unfold unvisited
  refine countP_lt_of_mem (lookup_mem hk) ?_ ?_ ?_
  · simp [List.lookup]
  · simp [hnone]
  · intro x _ hx
    rw [List.lookup] at hx
    rcases hbeq : x.2.Pkg.ID == pkg.Pkg.ID with _ | _
    · rw [hbeq] at hx
      exact hx
    · rw [hbeq] at hx
      cases hx

/-! ## Memo growth and fuel sufficiency -/

/-- The dependency loop only grows the memo map, given that the recursive
call does. -/
theorem marshalDepsGo_msub
    (mp : WPackage → List (String × WPackage) → Memo → Heap → MPRes)
    (hP : ∀ pkg pkgs memo heap r memo' heap',
      mp pkg pkgs memo heap = .ok r memo' heap' → MemoSub memo memo') :
    ∀ (deps : List String) (ref : Nat) (pkgs : List (String × WPackage))
      (memo : Memo) (heap : Heap) (memo' : Memo) (heap' : Heap),
      marshalDepsGo mp deps ref pkgs memo heap = .ok memo' heap' →
      MemoSub memo memo' := by
  intro deps
  induction deps with
  | nil =>
    intro ref pkgs memo heap memo' heap' h
    rw [marshalDepsGo] at h
    cases h
    exact memoSub_refl _
  | cons dep rest ih =>
    intro ref pkgs memo heap memo' heap' h
    rw [marshalDepsGo] at h
    cases hl : pkgs.lookup dep with
    | none =>
      simp only [hl] at h
      exact ih ref pkgs memo heap memo' heap' h
    | some child =>
      simp only [hl] at h
      cases hmp : mp child pkgs memo heap with
      | fuelOut => simp only [hmp] at h; cases h
      | fail msg => simp only [hmp] at h; cases h
      | ok r memo1 heap1 =>
        simp only [hmp] at h
        exact memoSub_trans (hP child pkgs memo heap r memo1 heap1 hmp)
          (ih ref pkgs memo1 (appendChild heap1 ref r) memo' heap' h)

/-- `marshalPackage` only grows the memo map. -/
theorem marshalPackageF_msub (conv : Conv) :
    ∀ (fuel : Nat) (pkg : WPackage) (pkgs : List (String × WPackage))
      (memo : Memo) (heap : Heap) (r : Option Nat) (memo' : Memo) (heap' : Heap),
      marshalPackageF conv fuel pkg pkgs memo heap = .ok r memo' heap' →
      MemoSub memo memo' := by
  intro fuel
  induction fuel with
  | zero => intro pkg pkgs memo heap r memo' heap' h; cases h
  | succ f ih =>
    intro pkg pkgs memo heap r memo' heap' h
    rw [marshalPackageF] at h
    cases hl : List.lookup pkg.Pkg.ID memo with
    | some r0 =>
      simp only [hl] at h
      cases h
      exact memoSub_refl _
    | none =>
      simp only [hl] at h
      cases hc : conv pkg with
      | error msg => simp only [hc] at h; cases h
      | ok copt =>
        simp only [hc] at h
        cases copt with
        | none => cases h; exact memoSub_refl _
        | some c =>
          simp only at h
          cases hd : marshalDepsGo (marshalPackageF conv f) pkg.Pkg.DependsOn
              heap.length pkgs ((pkg.Pkg.ID, heap.length) :: memo) (heap ++ [c]) with
          | fuelOut => simp only [hd] at h; cases h
          | fail msg => simp only [hd] at h; cases h
          | ok memo2 heap2 =>
            simp only [hd] at h
            cases h
            exact memoSub_trans (memoSub_cons hl)
              (marshalDepsGo_msub (marshalPackageF conv f) ih _ _ _ _ _ _ _ hd)

/-- The dependency loop never exhausts its fuel when the recursive call
does not. -/
theorem marshalDepsGo_fuel (conv : Conv) (fuel : Nat)
    (hP : ∀ (pkg : WPackage) (pkgs : List (String × WPackage)) (memo : Memo) (heap : Heap),
      (∃ k, List.lookup k pkgs = some pkg) → unvisited pkgs memo + 1 ≤ fuel →
      marshalPackageF conv fuel pkg pkgs memo heap ≠ .fuelOut) :
    ∀ (deps : List String) (ref : Nat) (pkgs : List (String × WPackage))
      (memo : Memo) (heap : Heap), unvisited pkgs memo + 1 ≤ fuel →
      marshalDepsGo (marshalPackageF conv fuel) deps ref pkgs memo heap ≠ .fuelOut := by
  intro deps
  induction deps with
  | nil =>
    intro ref pkgs memo heap _ h
    rw [marshalDepsGo] at h
    cases h
  | cons dep rest ih =>
    intro ref pkgs memo heap hfuel h
    rw [marshalDepsGo] at h
    cases hl : pkgs.lookup dep with
    | none =>
      simp only [hl] at h
      exact ih ref pkgs memo heap hfuel h
    | some child =>
      simp only [hl] at h
      cases hmp : marshalPackageF conv fuel child pkgs memo heap with
      | fuelOut => exact hP child pkgs memo heap ⟨dep, hl⟩ hfuel hmp
      | fail msg => simp only [hmp] at h; cases h
      | ok r memo1 heap1 =>
        simp only [hmp] at h
        have hmono : unvisited pkgs memo1 ≤ unvisited pkgs memo :=
          unvisited_mono (marshalPackageF_msub conv fuel child pkgs memo heap r memo1 heap1 hmp)
        exact ih ref pkgs memo1 (appendChild heap1 ref r)
          (Nat.le_trans (Nat.succ_le_succ hmono) hfuel) h

/-- `marshalPackage` never exhausts its fuel when called on a map value
with fuel exceeding the number of unvisited map entries: the memo map gains
the package's ID before each recursive descent, so the measure strictly
decreases. -/
theorem marshalPackageF_fuel (conv : Conv) :
    ∀ (fuel : Nat) (pkg : WPackage) (pkgs : List (String × WPackage))
      (memo : Memo) (heap : Heap),
      (∃ k, List.lookup k pkgs = some pkg) → unvisited pkgs memo + 1 ≤ fuel →
      marshalPackageF conv fuel pkg pkgs memo heap ≠ .fuelOut := by
  intro fuel
  induction fuel with
  | zero =>
    intro pkg pkgs memo heap _ hfuel
    exact absurd hfuel (Nat.not_succ_le_zero _)
  | succ f ih =>
    intro pkg pkgs memo heap hval hfuel h
    rw [marshalPackageF] at h
    cases hl : List.lookup pkg.Pkg.ID memo with
    | some r0 => simp only [hl] at h; cases h
    | none =>
      simp only [hl] at h
      cases hc : conv pkg with
      | error msg => simp only [hc] at h; cases h
      | ok copt =>
        simp only [hc] at h
        cases copt with
        | none => cases h
        | some c =>
          simp only at h
          cases hd : marshalDepsGo (marshalPackageF conv f) pkg.Pkg.DependsOn
              heap.length pkgs ((pkg.Pkg.ID, heap.length) :: memo) (heap ++ [c]) with
          | fail msg => simp only [hd] at h; cases h
          | ok memo2 heap2 => simp only [hd] at h; cases h
          | fuelOut =>
            rcases hval with ⟨k, hk⟩
            have hlt : unvisited pkgs ((pkg.Pkg.ID, heap.length) :: memo) <
                unvisited pkgs memo := unvisited_insert_lt hk hl
            have hle : unvisited pkgs ((pkg.Pkg.ID, heap.length) :: memo) + 1 ≤ f :=
              Nat.le_trans (Nat.succ_le_of_lt hlt) (Nat.le_of_succ_le_succ hfuel)
            exact marshalDepsGo_fuel conv f ih pkg.Pkg.DependsOn heap.length pkgs
              ((pkg.Pkg.ID, heap.length) :: memo) (heap ++ [c]) hle hd

/-- The package loop never comes back `none` when the fuel exceeds the map
size: every root starts from an empty memo, so the measure is at most the
number of map entries. -/
theorem mpLoop_ne_none (conv : Conv) (fuel : Nat)
    (pkgs : List (String × WPackage)) (parents : String → List String)
    (hfuel : pkgs.length + 1 ≤ fuel) :
    ∀ (order : List String) (acc : List (Option Nat)) (heap : Heap),
      mpLoop conv fuel pkgs parents order acc heap ≠ none := by
  intro order
  induction order with
  | nil => intro acc heap h; rw [mpLoop] at h; cases h
  | cons k rest ih =>
    intro acc heap h
    rw [mpLoop] at h
    cases hl : pkgs.lookup k with
    | none =>
      simp only [hl] at h
      exact ih acc heap h
    | some pkg =>
      simp only [hl] at h
      by_cases hsk : (pkg.Pkg.Indirect && !(parents pkg.Pkg.ID).isEmpty) = true
      · simp only [hsk, if_true] at h
        exact ih acc heap h
      · have hskF : (pkg.Pkg.Indirect && !(parents pkg.Pkg.ID).isEmpty) = false := by
          cases hb : (pkg.Pkg.Indirect && !(parents pkg.Pkg.ID).isEmpty)
          · rfl
          · exact absurd hb hsk
        simp only [hskF, Bool.false_eq_true, if_false] at h
        cases hmp : marshalPackageF conv fuel pkg pkgs [] heap with
        | fuelOut =>
          refine marshalPackageF_fuel conv fuel pkg pkgs [] heap ⟨k, hl⟩ ?_ hmp
          exact Nat.le_trans (Nat.succ_le_succ (unvisited_le pkgs [])) hfuel
        | fail msg => simp only [hmp] at h; cases h
        | ok comp memo' heap' =>
          simp only [hmp] at h
          cases comp with
          | some r => exact ih (acc ++ [some r]) heap' h
          | none => exact ih acc heap' h

/-- Go-map assignment grows the association list by at most one entry. -/
theorem upsert_length_le (m : List (String × WPackage)) (k : String) (v : WPackage) :
    (upsert m k v).length ≤ m.length + 1 := by
  induction m with
  | nil => simp [upsert]
  | cons kv rest ih =>
    rw [upsert]
    by_cases hk : kv.1 = k
    · simp only [hk, if_true]
      simp
    · simp only [hk, if_false]
      simpa using Nat.succ_le_succ ih

/-- The package map has at most one entry per package of the result. -/
theorem pkgMapOf_length_le (metadata : Metadata) (result : Result) :
    (pkgMapOf metadata result).length ≤ result.Packages.length := by
  unfold pkgMapOf
  suffices h : ∀ (l : List Package) (m : List (String × WPackage)),
      (l.foldl (fun m pkg =>
        let pkgID := pkgKey pkg
        upsert m pkgID
          { Pkg := pkg
            Typ := result.Typ
            Metadata := metadata
            Vulnerabilities := result.Vulnerabilities.filter (fun v => vulnKey v = pkgID) }) m).length ≤
        m.length + l.length by
    simpa using h result.Packages []
  intro l
  induction l with
  | nil => intro m; simp
  | cons pkg rest ih =>
    intro m
    rw [List.foldl_cons]
    refine Nat.le_trans (ih _) ?_
    have := upsert_length_le m (pkgKey pkg)
      { Pkg := pkg
        Typ := result.Typ
        Metadata := metadata
        Vulnerabilities := result.Vulnerabilities.filter (fun v => vulnKey v = pkgKey pkg) }
    simp only [List.length_cons]
    omega

/-- `marshalPackages` always terminates with a result, cyclic dependency
edges included: the fuel it passes always suffices. -/
theorem marshalPackages_ne_none (metadata : Metadata) (result : Result)
    (order : List String) (heap : Heap) :
    marshalPackages metadata result order heap ≠ none := by
  unfold marshalPackages marshalPackagesF
  refine mpLoop_ne_none pkgComponentE (result.Packages.length + 1) _ _ ?_ order [] heap
  exact Nat.succ_le_succ (pkgMapOf_length_le metadata result)

/-- `marshalResult` always comes back with a result. -/
theorem marshalResult_ne_none (metadata : Metadata) (result : Result)
    (order : List String) (heap : Heap) :
    marshalResult metadata result order heap ≠ none := by
  unfold marshalResult
  by_cases h1 : (result.Typ = NodePkg || result.Typ = PythonPkg || result.Typ = GemSpec ||
      result.Typ = Jar || result.Typ = CondaPkg) = true
  · simp only [h1, if_true]
    exact marshalPackages_ne_none metadata result order heap
  · have h1F : (result.Typ = NodePkg || result.Typ = PythonPkg || result.Typ = GemSpec ||
        result.Typ = Jar || result.Typ = CondaPkg) = false := by
      cases hb : (result.Typ = NodePkg || result.Typ = PythonPkg || result.Typ = GemSpec ||
          result.Typ = Jar || result.Typ = CondaPkg)
      · rfl
      · exact absurd hb h1
    simp only [h1F, Bool.false_eq_true, if_false]
    by_cases h2 : (result.Class = ClassOSPkg || result.Class = ClassLangPkg) = true
    · simp only [h2, if_true]
      cases hmp : marshalPackages metadata result order heap with
      | none => exact absurd hmp (marshalPackages_ne_none metadata result order heap)
      | some out =>
        cases out with
        | mk components heap' => intro h; cases h
    · have h2F : (result.Class = ClassOSPkg || result.Class = ClassLangPkg) = false := by
        cases hb : (result.Class = ClassOSPkg || result.Class = ClassLangPkg)
        · rfl
        · exact absurd hb h2
      simp only [h2F, Bool.false_eq_true, if_false]
      intro h; cases h

/-- The result loop of `MarshalReport` always comes back with a result. -/
theorem goResults_ne_none (metadata : Metadata) :
    ∀ (results : List Result) (orders : Nat → List String) (i : Nat) (heap : Heap),
      goResults metadata results orders i heap ≠ none := by
  intro results
  induction results with
  | nil => intro orders i heap h; rw [goResults] at h; cases h
  | cons res rest ih =>
    intro orders i heap h
    rw [goResults] at h
    cases hm : marshalResult metadata res (orders i) heap with
    | none => exact absurd hm (marshalResult_ne_none metadata res (orders i) heap)
    | some out =>
      rcases out with ⟨cs, heap'⟩
      simp only [hm] at h
      cases hg : goResults metadata rest orders (i + 1) heap' with
      | none => exact ih orders (i + 1) heap' hg
      | some out2 =>
        rcases out2 with ⟨cs', heap''⟩
        simp only [hg] at h
        cases h

/-- C2: building the package forest always terminates — in particular on
cyclic dependency edges, because `marshalPackage` registers a package in
the memo map before recursing, so the fuel passed by `marshalPackages`
provably suffices — and on the synthetic two-package cycle `ca ↔ cb`
(both direct) the forest contains components for both packages, each
listing the other as a child exactly once. -/
theorem c2_cycle_termination :
    (∀ (metadata : Metadata) (result : Result) (order : List String) (heap : Heap),
      marshalPackages metadata result order heap ≠ none) ∧
    (pkgCA.DependsOn = ["cb"] ∧ pkgCB.DependsOn = ["ca"] ∧
     pkgCA.Indirect = false ∧ pkgCB.Indirect = false ∧
     (cycleRun.map Prod.fst) = some [some 0, some 2] ∧
     (cycleRun.map (fun out => out.2.length)) = some 4 ∧
     (cycleRun.map (fun out => refId out.2 0)) = some (some "ca") ∧
     (cycleRun.map (fun out => childrenOf out.2 0)) = some [some 1] ∧
     (cycleRun.map (fun out => refId out.2 1)) = some (some "cb") ∧
     (cycleRun.map (fun out => childrenOf out.2 1)) = some [some 0] ∧
     (cycleRun.map (fun out => refId out.2 2)) = some (some "cb") ∧
     (cycleRun.map (fun out => childrenOf out.2 2)) = some [some 3] ∧
     (cycleRun.map (fun out => refId out.2 3)) = some (some "ca") ∧
     (cycleRun.map (fun out => childrenOf out.2 3)) = some [some 2]) :=
  ⟨marshalPackages_ne_none, by decide⟩

/-- Witness for C2 at the concrete cyclic result. -/
theorem c2_cycle_termination_witness :
    marshalPackages {} cycleResult ["ca", "cb"] [] ≠ none :=
  c2_cycle_termination.1 {} cycleResult ["ca", "cb"] []

/-- A container image whose identifier construction fails aborts the root. -/
theorem rootComponent_container_err (purlNew : Metadata → Except String (Option PUrl))
    (fromStr : String → Except String PUrl) (r : Report) (e : String)
    (hcont : r.ArtifactType = ArtifactContainerImage)
    (hpn : purlNew r.Metadata = .error e) :
    rootComponent purlNew fromStr r = .error ("failed to new package url for oci: " ++ e) := by
  simp [rootComponent, hcont, hpn, ArtifactContainerImage, ArtifactCycloneDX]

/-- A container image whose identifier construction succeeds gets a root. -/
theorem rootComponent_container_ok (purlNew : Metadata → Except String (Option PUrl))
    (fromStr : String → Except String PUrl) (r : Report) (p : Option PUrl)
    (hcont : r.ArtifactType = ArtifactContainerImage)
    (hpn : purlNew r.Metadata = .ok p) :
    ∃ root, rootComponent purlNew fromStr r = .ok root := by
  simp [rootComponent, hcont, hpn, ArtifactContainerImage, ArtifactCycloneDX]

/-- Any non-container, non-passthrough artifact always gets a root. -/
theorem rootComponent_other_ok (purlNew : Metadata → Except String (Option PUrl))
    (fromStr : String → Except String PUrl) (r : Report)
    (hcont : r.ArtifactType ≠ ArtifactContainerImage)
    (hcdx : r.ArtifactType ≠ ArtifactCycloneDX) :
    ∃ root, rootComponent purlNew fromStr r = .ok root := by
  by_cases hvm : r.ArtifactType = ArtifactVM
  · simp [rootComponent, hvm, ArtifactVM, ArtifactContainerImage, ArtifactCycloneDX]
  · by_cases hf : r.ArtifactType = ArtifactFilesystem
    · simp [rootComponent, hf, ArtifactFilesystem, ArtifactContainerImage, ArtifactCycloneDX,
        ArtifactVM]
    · by_cases hrep : r.ArtifactType = ArtifactRepository
      · simp [rootComponent, hrep, ArtifactRepository, ArtifactContainerImage, ArtifactCycloneDX,
          ArtifactVM, ArtifactFilesystem]
      · simp [rootComponent, if_neg hcdx, if_neg hcont, if_neg hvm, if_neg hf, if_neg hrep,
          hcont, hvm, hf, hrep]

/-- A passthrough document with an empty metadata identifier gets a root. -/
theorem rootComponent_cdx_emptyurl_ok (purlNew : Metadata → Except String (Option PUrl))
    (fromStr : String → Except String PUrl) (r : Report) (cd : CycloneDXMeta)
    (hcdx : r.ArtifactType = ArtifactCycloneDX) (hcd : r.CycloneDX = some cd)
    (hurl : cd.Component.PackageURL = "") :
    ∃ root, rootComponent purlNew fromStr r = .ok root := by
  simp [rootComponent, hcdx, hcd, toCoreComponent, hurl]

/-- A passthrough document whose identifier parses gets a root. -/
theorem rootComponent_cdx_parse_ok (purlNew : Metadata → Except String (Option PUrl))
    (fromStr : String → Except String PUrl) (r : Report) (cd : CycloneDXMeta) (p : PUrl)
    (hcdx : r.ArtifactType = ArtifactCycloneDX) (hcd : r.CycloneDX = some cd)
    (hurl : cd.Component.PackageURL ≠ "")
    (hfs : fromStr cd.Component.PackageURL = .ok p) :
    ∃ root, rootComponent purlNew fromStr r = .ok root := by
  simp [rootComponent, hcdx, hcd, toCoreComponent, hurl, hfs, Except.map]

/-- A passthrough document whose identifier fails to parse aborts the root. -/
theorem rootComponent_cdx_parse_err (purlNew : Metadata → Except String (Option PUrl))
    (fromStr : String → Except String PUrl) (r : Report) (cd : CycloneDXMeta) (e : String)
    (hcdx : r.ArtifactType = ArtifactCycloneDX) (hcd : r.CycloneDX = some cd)
    (hurl : cd.Component.PackageURL ≠ "")
    (hfs : fromStr cd.Component.PackageURL = .error e) :
    rootComponent purlNew fromStr r = .error ("failed to parse purl: " ++ e) := by
  simp [rootComponent, hcdx, hcd, toCoreComponent, hurl, hfs, Except.map]

/-- `rootComponent` fails exactly when the artifact is a container image
whose identifier construction fails, or a passthrough document whose
non-empty metadata package identifier fails to parse. -/
theorem rootComponent_error_iff (purlNew : Metadata → Except String (Option PUrl))
    (fromStr : String → Except String PUrl) (r : Report)
    (hwf : r.ArtifactType = ArtifactCycloneDX → r.CycloneDX.isSome = true) :
    (∃ e, rootComponent purlNew fromStr r = .error e) ↔
      ((r.ArtifactType = ArtifactContainerImage ∧ ∃ e, purlNew r.Metadata = .error e) ∨
       (r.ArtifactType = ArtifactCycloneDX ∧ ∃ cd e, r.CycloneDX = some cd ∧
         cd.Component.PackageURL ≠ "" ∧ fromStr cd.Component.PackageURL = .error e)) := by
  by_cases hcdx : r.ArtifactType = ArtifactCycloneDX
  · have hcont : ¬(r.ArtifactType = ArtifactContainerImage) := by
      intro hc
      rw [hcdx] at hc
      exact absurd hc (by decide)
    cases hcd : r.CycloneDX with
    | none =>
      have := hwf hcdx
      rw [hcd] at this
      cases this
    | some cd =>
      by_cases hurl : cd.Component.PackageURL = ""
      · rcases rootComponent_cdx_emptyurl_ok purlNew fromStr r cd hcdx hcd hurl with ⟨root, hok⟩
        rw [hok]
        constructor
        · rintro ⟨e, he⟩; cases he
        · rintro (⟨hc, _⟩ | ⟨_, cd', e, hcd', hurl', _⟩)
          · exact absurd hc hcont
          · injection hcd' with hcdeq
            rw [← hcdeq] at hurl'
            exact absurd hurl hurl'
      · cases hfs : fromStr cd.Component.PackageURL with
        | error e =>
          rw [rootComponent_cdx_parse_err purlNew fromStr r cd e hcdx hcd hurl hfs]
          constructor
          · intro _
            exact Or.inr ⟨hcdx, cd, e, rfl, hurl, hfs⟩
          · intro _
            exact ⟨"failed to parse purl: " ++ e, rfl⟩
        | ok p =>
          rcases rootComponent_cdx_parse_ok purlNew fromStr r cd p hcdx hcd hurl hfs
            with ⟨root, hok⟩
          rw [hok]
          constructor
          · rintro ⟨e, he⟩; cases he
          · rintro (⟨hc, _⟩ | ⟨_, cd', e, hcd', _, hfs'⟩)
            · exact absurd hc hcont
            · injection hcd' with hcdeq
              rw [← hcdeq] at hfs'
              rw [hfs] at hfs'
              cases hfs'
  · by_cases hcont : r.ArtifactType = ArtifactContainerImage
    · cases hpn : purlNew r.Metadata with
      | error e =>
        rw [rootComponent_container_err purlNew fromStr r e hcont hpn]
        constructor
        · intro _
          exact Or.inl ⟨hcont, e, rfl⟩
        · intro _
          exact ⟨"failed to new package url for oci: " ++ e, rfl⟩
      | ok p =>
        rcases rootComponent_container_ok purlNew fromStr r p hcont hpn with ⟨root, hok⟩
        rw [hok]
        constructor
        · rintro ⟨e, he⟩; cases he
        · rintro (⟨_, e, hpn'⟩ | ⟨hc, _⟩)
          · cases hpn'
          · exact absurd hc hcdx
    · rcases rootComponent_other_ok purlNew fromStr r hcont hcdx with ⟨root, hok⟩
      rw [hok]
      constructor
      · rintro ⟨e, he⟩; cases he
      · rintro (⟨hc, _⟩ | ⟨hc, _⟩)
        · exact absurd hc hcont
        · exact absurd hc hcdx

/-- C7: `MarshalReport` returns an error — and then no component graph at
all — exactly when building the package identifier for a container image's
root fails, or when parsing the non-empty package identifier of a
passthrough document's metadata component fails; no other condition aborts
the build (per-result marshaling never produces an error).  Well-formedness
premise: a passthrough report actually carries its document (in Go a
missing one would be a nil-pointer panic, not an error). -/
theorem c7_error_conditions (purlNew : Metadata → Except String (Option PUrl))
    (fromStr : String → Except String PUrl) (r : Report) (orders : Nat → List String)
    (hwf : r.ArtifactType = ArtifactCycloneDX → r.CycloneDX.isSome = true) :
    (∃ e, MarshalReport purlNew fromStr r orders = .error e) ↔
      ((r.ArtifactType = ArtifactContainerImage ∧ ∃ e, purlNew r.Metadata = .error e) ∨
       (r.ArtifactType = ArtifactCycloneDX ∧ ∃ cd e, r.CycloneDX = some cd ∧
         cd.Component.PackageURL ≠ "" ∧ fromStr cd.Component.PackageURL = .error e)) := by
  rw [← rootComponent_error_iff purlNew fromStr r hwf]
  unfold MarshalReport
  cases hr : rootComponent purlNew fromStr r with
  | error e =>
    constructor
    · intro _; exact ⟨e, rfl⟩
    · intro _; exact ⟨e, rfl⟩
  | ok root =>
    cases hg : goResults r.Metadata r.Results orders 0 [] with
    | none => exact absurd hg (goResults_ne_none r.Metadata r.Results orders 0 [])
    | some out =>
      rcases out with ⟨comps, heap⟩
      constructor
      · rintro ⟨e, he⟩; cases he
      · rintro ⟨e, he⟩; cases he

/-- Witness for C7: a container image whose identifier construction fails
makes the whole report's build fail. -/
theorem c7_error_conditions_witness :
    ∃ e, MarshalReport purlNewFail fromStrFail containerReport (fun _ => []) = .error e := by
  refine (c7_error_conditions purlNewFail fromStrFail containerReport (fun _ => [])
    (by decide)).mpr ?_
  exact Or.inl ⟨rfl, "oci identifier failure", rfl⟩

/-- The result loop is the concatenation of the per-result lists. -/
theorem goResults_eq_perResultLists (metadata : Metadata) :
    ∀ (results : List Result) (orders : Nat → List String) (i : Nat) (heap : Heap),
      goResults metadata results orders i heap =
        (perResultLists metadata results orders i heap).map
          (fun x => (x.1.flatten, x.2)) := by
  intro results
  induction results with
  | nil => intro orders i heap; simp [goResults, perResultLists]
  | cons res rest ih =>
    intro orders i heap
    rw [goResults, perResultLists]
    cases hm : marshalResult metadata res (orders i) heap with
    | none => rfl
    | some out =>
      rcases out with ⟨cs, heap'⟩
      simp only []
      rw [ih orders (i + 1) heap']
      cases hp : perResultLists metadata rest orders (i + 1) heap' with
      | none => rfl
      | some out2 =>
        rcases out2 with ⟨ls, heap''⟩
        simp [List.flatten]

/-- The per-result decomposition has one entry per result. -/
theorem perResultLists_length (metadata : Metadata) :
    ∀ (results : List Result) (orders : Nat → List String) (i : Nat) (heap : Heap)
      (ls : List (List (Option Nat))) (heap' : Heap),
      perResultLists metadata results orders i heap = some (ls, heap') →
      ls.length = results.length := by
  intro results
  induction results with
  | nil =>
    intro orders i heap ls heap' h
    rw [perResultLists] at h
    cases h
    rfl
  | cons res rest ih =>
    intro orders i heap ls heap' h
    rw [perResultLists] at h
    cases hm : marshalResult metadata res (orders i) heap with
    | none => rw [hm] at h; cases h
    | some out =>
      rcases out with ⟨cs, heap1⟩
      simp only [hm] at h
      cases hp : perResultLists metadata rest orders (i + 1) heap1 with
      | none => rw [hp] at h; cases h
      | some out2 =>
        rcases out2 with ⟨ls1, heap2⟩
        simp only [hp] at h
        cases h
        simp only [List.length_cons]
        rw [ih orders (i + 1) heap1 ls1 heap' hp]

/-- The root component starts with no children of its own: every child comes
from a result. -/
theorem rootComponent_components_nil (purlNew : Metadata → Except String (Option PUrl))
    (fromStr : String → Except String PUrl) (r : Report) (root : CompData)
    (h : rootComponent purlNew fromStr r = .ok root) : root.Components = [] := by
  by_cases hcdx : r.ArtifactType = ArtifactCycloneDX
  · cases hcd : r.CycloneDX with
    | none =>
      rw [rootComponent, if_pos hcdx] at h
      simp only [hcd] at h
      cases h
    | some cd =>
      by_cases hurl : cd.Component.PackageURL = ""
      · simp [rootComponent, hcdx, hcd, toCoreComponent, hurl] at h
        rw [← h]
      · cases hfs : fromStr cd.Component.PackageURL with
        | error e =>
          rw [rootComponent_cdx_parse_err purlNew fromStr r cd e hcdx hcd hurl hfs] at h
          cases h
        | ok p =>
          simp [rootComponent, hcdx, hcd, toCoreComponent, hurl, hfs, Except.map] at h
          rw [← h]
  · by_cases hcont : r.ArtifactType = ArtifactContainerImage
    · cases hpn : purlNew r.Metadata with
      | error e =>
        rw [rootComponent_container_err purlNew fromStr r e hcont hpn] at h
        cases h
      | ok p =>
        simp [rootComponent, hcont, hpn, ArtifactContainerImage, ArtifactCycloneDX] at h
        rw [← h]
    · by_cases hvm : r.ArtifactType = ArtifactVM
      · simp [rootComponent, hvm, ArtifactVM, ArtifactContainerImage, ArtifactCycloneDX] at h
        rw [← h]
      · by_cases hf : r.ArtifactType = ArtifactFilesystem
        · simp [rootComponent, hf, ArtifactFilesystem, ArtifactContainerImage,
            ArtifactCycloneDX, ArtifactVM] at h
          rw [← h]
        · by_cases hrep : r.ArtifactType = ArtifactRepository
          · simp [rootComponent, hrep, ArtifactRepository, ArtifactContainerImage,
              ArtifactCycloneDX, ArtifactVM, ArtifactFilesystem] at h
            rw [← h]
          · simp [rootComponent, if_neg hcdx, if_neg hcont, if_neg hvm, if_neg hf,
              if_neg hrep, hcont, hvm, hf, hrep] at h
            rw [← h]

/-- C8 amended: the direct children of the root built by `MarshalReport`
are exactly the concatenation, in result order, of each result's component
list — but a result contributes zero or more children, not exactly one
subtree: none when it is dropped, one intermediate node when it is OS- or
language-classified, and one per direct package when it is a floating
language-package result. -/
theorem c8_amended (purlNew : Metadata → Except String (Option PUrl))
    (fromStr : String → Except String PUrl) (r : Report) (orders : Nat → List String)
    (root : CompData) (heap : Heap)
    (h : MarshalReport purlNew fromStr r orders = .ok (root, heap)) :
    ∃ ls, perResultLists r.Metadata r.Results orders 0 [] = some (ls, heap) ∧
      root.Components = ls.flatten ∧ ls.length = r.Results.length := by
  unfold MarshalReport at h
  cases hr : rootComponent purlNew fromStr r with
  | error e => rw [hr] at h; cases h
  | ok root0 =>
    rw [hr, goResults_eq_perResultLists] at h
    cases hp : perResultLists r.Metadata r.Results orders 0 [] with
    | none => rw [hp] at h; cases h
    | some out =>
      rcases out with ⟨ls, heap'⟩
      simp only [hp, Option.map] at h
      simp only [Except.ok.injEq, Prod.mk.injEq] at h
      obtain ⟨h1, h2⟩ := h
      subst h2
      refine ⟨ls, rfl, ?_, perResultLists_length r.Metadata r.Results orders 0 [] ls heap' hp⟩
      rw [← h1]
      simp [rootComponent_components_nil purlNew fromStr r root0 hr]

/-- Witness for C8 amended at the concrete `nodeReport` run. -/
theorem c8_amended_witness :
    ∃ ls, perResultLists nodeReport.Metadata nodeReport.Results (fun _ => ["x", "y"]) 0 [] =
        some (ls, (nodeRunXY.toOption.map Prod.snd).getD []) ∧
      ((nodeRunXY.toOption.map Prod.fst).getD {}).Components = ls.flatten ∧
      ls.length = nodeReport.Results.length := by
  have h : MarshalReport purlNewNone fromStrFail nodeReport (fun _ => ["x", "y"]) =
      .ok (((nodeRunXY.toOption.map Prod.fst).getD {}),
        ((nodeRunXY.toOption.map Prod.snd).getD [])) := by
    rfl
  exact c8_amended purlNewNone fromStrFail nodeReport (fun _ => ["x", "y"]) _ _ h

/-! ## Cell and map lemmas for the graph invariants -/

/-- A freshly built package component records its package's ID (non-empty
IDs survive the property filter). -/
theorem pkgIdOf_pkgComponent (pkg : WPackage) (h : pkg.Pkg.ID ≠ "") :
    pkgIdOf (pkgComponent pkg) = some pkg.Pkg.ID := by
  simp [pkgComponent, pkgIdOf, filterProperties, h, PropertyPkgID, PropertySrcEpoch]

/-- A freshly built package component has no children yet. -/
theorem pkgComponent_components (pkg : WPackage) :
    (pkgComponent pkg).Components = [] := rfl

/-- Appending a childless cell keeps the heap closed. -/
theorem heapClosed_append_nil {heap : Heap} {c : CompData}
    (h : HeapClosed heap) (hc : c.Components = []) : HeapClosed (heap ++ [c]) := by
  intro c' hc' x hx rq hrq
  rcases List.mem_append.mp hc' with hold | hnew
  · have := h c' hold x hx rq hrq
    simp only [List.length_append, List.length_singleton]
    omega
  · rcases List.mem_singleton.mp hnew with rfl
    rw [hc] at hx
    cases hx

/-- Appending a valid child reference keeps the heap closed. -/
theorem heapClosed_appendChild {heap : Heap} {ref : Nat} {child : Option Nat}
    (h : HeapClosed heap)
    (hchild : ∀ rq : Nat, child = some rq → rq < heap.length) :
    HeapClosed (appendChild heap ref child) := by
  unfold appendChild
  cases hg : heap.get? ref with
  | none => exact h
  | some c =>
    intro c' hc' x hx rq hrq
    rw [List.length_set]
    rcases List.mem_or_eq_of_mem_set hc' with hold | rfl
    · exact h c' hold x hx rq hrq
    · rcases List.mem_append.mp hx with hxc | hxnew
      · exact h c (List.get?_mem hg) x hxc rq hrq
      · rcases List.mem_singleton.mp hxnew with rfl
        exact hchild rq hrq

/-- Appending cells preserves memo well-formedness. -/
theorem memoOK_append {m : Memo} {heap : Heap} (h : MemoOK m heap) (cs : List CompData) :
    MemoOK m (heap ++ cs) := by
  intro k r hk
  rcases h k r hk with ⟨hlt, hid⟩
  refine ⟨?_, ?_⟩
  · rw [List.length_append]; omega
  · rw [refId_append cs hlt]; exact hid

/-- `appendChild` preserves memo well-formedness. -/
theorem memoOK_appendChild {m : Memo} {heap : Heap} (h : MemoOK m heap)
    (ref : Nat) (child : Option Nat) : MemoOK m (appendChild heap ref child) := by
  intro k r hk
  rcases h k r hk with ⟨hlt, hid⟩
  refine ⟨?_, ?_⟩
  · rw [appendChild_length]; exact hlt
  · rw [refId_appendChild]; exact hid

/-- The reference to a just-appended cell reads back that cell's ID. -/
theorem refId_concat (heap : Heap) (c : CompData) :
    refId (heap ++ [c]) heap.length = pkgIdOf c := by
  unfold refId
  rw [List.get?_concat_length]
  rfl

/-- A root for a loop entered later is also a root for a loop entered
earlier, in a larger collection. -/
theorem rootOf_weaken {pkgs : List (String × WPackage)} {lo lo' : Nat} {heap' : Heap}
    {pkg : WPackage} {extra extra' : List (Option Nat)} {r : Nat}
    (h : RootOf pkgs lo heap' pkg extra r) (hlo : lo' ≤ lo)
    (hsub : ∀ x, x ∈ extra → x ∈ extra') :
    RootOf pkgs lo' heap' pkg extra' r := by
  obtain ⟨hmem, hge, hlt, hid, hch, hdep⟩ := h
  exact ⟨hsub _ hmem, Nat.le_trans hlo hge, hlt, hid,
    fun rq hrq => ⟨Nat.le_trans hlo (hch rq hrq).1, (hch rq hrq).2⟩, hdep⟩

/-- The root-skip test is false exactly when the package is not an indirect
package with a recorded parent. -/
theorem skip_false_iff (pkg : WPackage) (parents : String → List String) :
    ((pkg.Pkg.Indirect && !(parents pkg.Pkg.ID).isEmpty) = false) ↔
      ¬(pkg.Pkg.Indirect = true ∧ parents pkg.Pkg.ID ≠ []) := by
  cases hi : pkg.Pkg.Indirect
  · simp
  · cases hp : parents pkg.Pkg.ID with
    | nil => simp
    | cons a l => simp

/-- In a list whose mapped IDs are distinct, equal IDs mean equal packages. -/
theorem nodup_id_inj : ∀ {l : List Package}, (l.map Package.ID).Nodup →
    ∀ {p q : Package}, p ∈ l → q ∈ l → p.ID = q.ID → p = q := by
  intro l
  induction l with
  | nil => intro _ p q hp; cases hp
  | cons a rest ih =>
    intro hnd p q hp hq hid
    rw [List.map_cons, List.nodup_cons] at hnd
    rcases List.mem_cons.mp hp with rfl | hp' <;>
      rcases List.mem_cons.mp hq with rfl | hq'
    · rfl
    · exact absurd (hid ▸ List.mem_map_of_mem Package.ID hq') hnd.1
    · exact absurd (hid ▸ List.mem_map_of_mem Package.ID hp') hnd.1
    · exact ih hnd.2 hp' hq' hid

/-- Go-map assignment with a fresh key appends. -/
theorem upsert_eq_append : ∀ {m : List (String × WPackage)} {k : String} {v : WPackage},
    (∀ kv ∈ m, kv.1 ≠ k) → upsert m k v = m ++ [(k, v)] := by
  intro m
  induction m with
  | nil => intro k v _; rfl
  | cons kv rest ih =>
    intro k v h
    rw [upsert]
    rw [if_neg (h kv (List.mem_cons_self _ _))]
    rw [ih (fun kv' hkv' => h kv' (List.mem_cons_of_mem _ hkv'))]
    rfl

/-- With well-formed package IDs, the package map is simply the list of
packages keyed by their raw IDs, in order. -/
theorem pkgMapOf_eq_map (metadata : Metadata) (result : Result) (h : IDsOK result) :
    pkgMapOf metadata result =
      result.Packages.map (fun p => (p.ID, wrapOf metadata result p)) := by
  obtain ⟨hne, hnd⟩ := h
  unfold pkgMapOf
  suffices hgen : ∀ (l : List Package) (m : List (String × WPackage)),
      (∀ p ∈ l, p.ID ≠ "") → (l.map Package.ID).Nodup →
      (∀ kv ∈ m, ∀ p ∈ l, kv.1 ≠ p.ID) →
      (l.foldl (fun m pkg =>
        upsert m (pkgKey pkg)
          { Pkg := pkg
            Typ := result.Typ
            Metadata := metadata
            Vulnerabilities := result.Vulnerabilities.filter (fun v => vulnKey v = pkgKey pkg) }) m) =
        m ++ l.map (fun p => (p.ID, wrapOf metadata result p)) by
    have hres := hgen result.Packages [] hne hnd (fun kv hkv => by cases hkv)
    rw [List.nil_append] at hres
    exact hres
  intro l
  induction l with
  | nil => intro m _ _ _; simp
  | cons p rest ih =>
    intro m hne' hnd' hfresh
    rw [List.foldl_cons]
    have hkey : pkgKey p = p.ID := by
      unfold pkgKey
      rw [if_neg (hne' p (List.mem_cons_self _ _))]
    rw [List.map_cons, List.nodup_cons] at hnd'
    have hstep : upsert m (pkgKey p)
        { Pkg := p
          Typ := result.Typ
          Metadata := metadata
          Vulnerabilities := result.Vulnerabilities.filter (fun v => vulnKey v = pkgKey p) } =
        m ++ [(p.ID, wrapOf metadata result p)] := by
      unfold wrapOf
      rw [hkey]
      exact upsert_eq_append (fun kv hkv => hfresh kv hkv p (List.mem_cons_self _ _))
    rw [hstep]
    rw [ih (m ++ [(p.ID, wrapOf metadata result p)])
      (fun q hq => hne' q (List.mem_cons_of_mem _ hq)) hnd'.2 ?_]
    · simp [List.append_assoc]
    · intro kv hkv q hq
      rcases List.mem_append.mp hkv with hold | hnewkv
      · exact hfresh kv hold q (List.mem_cons_of_mem _ hq)
      · rcases List.mem_singleton.mp hnewkv with rfl
        intro hcon
        have hcon' : p.ID = q.ID := hcon
        exact hnd'.1 (hcon' ▸ List.mem_map_of_mem Package.ID hq)

/-- With well-formed IDs every package of the result can be looked up by
its ID, giving its wrapped form. -/
theorem pkgMapOf_lookup (metadata : Metadata) (result : Result) (h : IDsOK result)
    {p : Package} (hp : p ∈ result.Packages) :
    (pkgMapOf metadata result).lookup p.ID = some (wrapOf metadata result p) := by
  rw [pkgMapOf_eq_map metadata result h]
  obtain ⟨_, hnd⟩ := h
  revert hnd hp
  suffices hgen : ∀ l : List Package, (l.map Package.ID).Nodup → p ∈ l →
      (l.map (fun q => (q.ID, wrapOf metadata result q))).lookup p.ID =
        some (wrapOf metadata result p) from
    fun hp hnd => hgen result.Packages hnd hp
  intro l
  induction l with
  | nil => intro _ hp; cases hp
  | cons a rest ih =>
    intro hnd hp
    rw [List.map_cons, List.nodup_cons] at hnd
    rw [List.map_cons, List.lookup]
    rcases List.mem_cons.mp hp with rfl | hp'
    · simp
    · have hne : p.ID ≠ a.ID := by
        intro hcon
        exact hnd.1 (hcon ▸ List.mem_map_of_mem Package.ID hp')
      rw [beq_eq_false_iff_ne.mpr hne]
      exact ih hnd.2 hp'

/-- With well-formed IDs, every successful lookup returns a wrapped member
package whose raw ID is the key. -/
theorem pkgMapOf_lookup_inv (metadata : Metadata) (result : Result) (h : IDsOK result)
    {k : String} {w : WPackage} (hw : (pkgMapOf metadata result).lookup k = some w) :
    w.Pkg ∈ result.Packages ∧ w.Pkg.ID = k ∧ w = wrapOf metadata result w.Pkg := by
  rw [pkgMapOf_eq_map metadata result h] at hw
  have hmem := lookup_mem hw
  rcases List.mem_map.mp hmem with ⟨p, hp, heq⟩
  injection heq with h1 h2
  subst h2
  exact ⟨hp, h1, rfl⟩

/-- With well-formed IDs the package map holds only non-empty raw IDs. -/
theorem pkgMapOf_good (metadata : Metadata) (result : Result) (h : IDsOK result) :
    GoodPkgs (pkgMapOf metadata result) := by
  intro kv hkv
  rw [pkgMapOf_eq_map metadata result h] at hkv
  rcases List.mem_map.mp hkv with ⟨p, hp, heq⟩
  rw [← heq]
  exact h.1 p hp

/-- With well-formed IDs the package-map keys are the package IDs in order. -/
theorem pkgMapOf_keys (metadata : Metadata) (result : Result) (h : IDsOK result) :
    (pkgMapOf metadata result).map Prod.fst = result.Packages.map Package.ID := by
  rw [pkgMapOf_eq_map metadata result h, List.map_map]
  rfl

/-- A dependency loop preserves the recorded ID of every pre-existing cell:
it only appends children to the parent and allocates fresh cells. -/
theorem mdout_refId_pres {deps : List String} {pkgs : List (String × WPackage)}
    {ref : Nat} {memo : Memo} {heap : Heap} {memo' : Memo} {heap' : Heap}
    {tail : List (Option Nat)}
    (out : MDOut deps pkgs ref memo heap memo' heap' tail) :
    ∀ i, i < heap.length → refId heap' i = refId heap i := by
  intro i hi
  by_cases h : i = ref
  · subst h
    rcases hc : heap.get? i with _ | c
    · rw [List.get?_eq_none] at hc
      omega
    · unfold refId
      rw [out.refCell c hc, hc]
      rfl
  · unfold refId
    rw [out.presOff i hi h]

/-- Dependency-loop equation: a dangling reference is skipped. -/
theorem marshalDepsGo_cons_none
    (mp : WPackage → List (String × WPackage) → Memo → Heap → MPRes)
    (dep : String) (rest : List String) (ref : Nat)
    (pkgs : List (String × WPackage)) (memo : Memo) (heap : Heap)
    (h : pkgs.lookup dep = none) :
    marshalDepsGo mp (dep :: rest) ref pkgs memo heap =
      marshalDepsGo mp rest ref pkgs memo heap := by
  rw [marshalDepsGo, h]

/-- Dependency-loop equation: a resolved reference recurses and appends. -/
theorem marshalDepsGo_cons_some
    (mp : WPackage → List (String × WPackage) → Memo → Heap → MPRes)
    (dep : String) (rest : List String) (ref : Nat)
    (pkgs : List (String × WPackage)) (memo : Memo) (heap : Heap) (child : WPackage)
    (h : pkgs.lookup dep = some child) :
    marshalDepsGo mp (dep :: rest) ref pkgs memo heap =
      match mp child pkgs memo heap with
      | .fuelOut => .fuelOut
      | .fail msg => .fail msg
      | .ok c memo' heap' =>
        marshalDepsGo mp rest ref pkgs memo' (appendChild heap' ref c) := by
  rw [marshalDepsGo, h]

/-- Invariant bundle for the dependency loop, given the bundle for the
recursive `marshalPackage` call at this fuel level. -/
theorem marshalDeps_spec (fuel : Nat)
    (hP : ∀ (pkg : WPackage) (pkgs : List (String × WPackage)) (memo : Memo) (heap : Heap),
      GoodPkgs pkgs → pkg.Pkg.ID ≠ "" → MemoOK memo heap → HeapClosed heap →
      marshalPackageF pkgComponentE fuel pkg pkgs memo heap = .fuelOut ∨
      ∃ r memo' heap',
        marshalPackageF pkgComponentE fuel pkg pkgs memo heap = .ok (some r) memo' heap' ∧
        MPOut pkg memo heap r memo' heap') :
    ∀ (deps : List String) (ref : Nat) (pkgs : List (String × WPackage))
      (memo : Memo) (heap : Heap),
      GoodPkgs pkgs → MemoOK memo heap → HeapClosed heap → ref < heap.length →
      marshalDepsGo (marshalPackageF pkgComponentE fuel) deps ref pkgs memo heap = .fuelOut ∨
      ∃ memo' heap' tail,
        marshalDepsGo (marshalPackageF pkgComponentE fuel) deps ref pkgs memo heap =
          .ok memo' heap' ∧
        MDOut deps pkgs ref memo heap memo' heap' tail := by
  intro deps
  induction deps with
  | nil =>
    intro ref pkgs memo heap _ hmok hhc _
    right
    refine ⟨memo, heap, [], rfl, ?_⟩
    refine ⟨Nat.le_refl _, fun i _ _ => rfl, ?_, memoSub_refl _, hmok, hhc, ?_, ?_⟩
    · intro c hc
      rw [hc]
      simp
    · intro d q hd
      cases hd
    · intro n _ hm
      exact ⟨fun rq hrq => absurd hrq (List.not_mem_nil _), hm⟩
  | cons dep rest ih =>
    intro ref pkgs memo heap hgood hmok hhc href
    cases hl : pkgs.lookup dep with
    | none =>
      rw [marshalDepsGo_cons_none _ _ _ _ _ _ _ hl]
      rcases ih ref pkgs memo heap hgood hmok hhc href with hfo | ⟨memo', heap', tail, hok, out⟩
      · left; exact hfo
      · right
        refine ⟨memo', heap', tail, hok, ?_⟩
        refine ⟨out.hlen, out.presOff, out.refCell, out.msub, out.mok, out.hc, ?_, out.tailge⟩
        intro d q hd hq
        rcases List.mem_cons.mp hd with rfl | hd'
        · rw [hl] at hq; cases hq
        · exact out.depsMem d q hd' hq
    | some child =>
      rw [marshalDepsGo_cons_some _ _ _ _ _ _ _ _ hl]
      have hne : child.Pkg.ID ≠ "" := hgood (dep, child) (lookup_mem hl)
      rcases hP child pkgs memo heap hgood hne hmok hhc with hfo | ⟨r, memo1, heap1, hok1, out1⟩
      · rw [hfo]; left; rfl
      · rw [hok1]
        have href1 : ref < heap1.length := Nat.lt_of_lt_of_le href out1.hlen
        have hchild_lt : ∀ rq : Nat, (some r : Option Nat) = some rq → rq < heap1.length := by
          intro rq hrq
          injection hrq with h
          rw [← h]
          exact out1.rlt
        have hhc2 : HeapClosed (appendChild heap1 ref (some r)) :=
          heapClosed_appendChild out1.hc hchild_lt
        have hmok2 : MemoOK memo1 (appendChild heap1 ref (some r)) :=
          memoOK_appendChild out1.mok ref (some r)
        have href2 : ref < (appendChild heap1 ref (some r)).length := by
          rw [appendChild_length]; exact href1
        rcases ih ref pkgs memo1 (appendChild heap1 ref (some r)) hgood hmok2 hhc2 href2 with
          hfo | ⟨memo', heap', tail', hok', out'⟩
        · left; exact hfo
        · right
          have hlen01 : heap.length ≤ (appendChild heap1 ref (some r)).length := by
            rw [appendChild_length]; exact out1.hlen
          refine ⟨memo', heap', some r :: tail', hok', ?_⟩
          refine ⟨Nat.le_trans hlen01 out'.hlen, ?_, ?_, memoSub_trans out1.msub out'.msub,
            out'.mok, out'.hc, ?_, ?_⟩
          · intro i hi hne'
            rw [out'.presOff i (Nat.lt_of_lt_of_le hi hlen01) hne',
              appendChild_get_ne heap1 ref (some r) hne', out1.pres i hi]
          · intro c hc
            have hc1 : heap1.get? ref = some c := by
              rw [out1.pres ref href]; exact hc
            have hc2 := appendChild_get_self heap1 ref (some r) hc1
            rw [out'.refCell _ hc2]
            simp [List.append_assoc]
          · intro d q hd hq
            rcases List.mem_cons.mp hd with rfl | hd'
            · rw [hl] at hq
              injection hq with hq'
              subst hq'
              refine ⟨r, List.mem_cons_self _ _, ?_⟩
              have e2 : refId (appendChild heap1 ref (some r)) r = some child.Pkg.ID := by
                rw [refId_appendChild]; exact out1.rid
              have hrlt2 : r < (appendChild heap1 ref (some r)).length := by
                rw [appendChild_length]; exact out1.rlt
              rw [mdout_refId_pres out' r hrlt2]
              exact e2
            · rcases out'.depsMem d q hd' hq with ⟨rq, hmem', hid⟩
              exact ⟨rq, List.mem_cons_of_mem _ hmem', hid⟩
          · intro n hn hm
            obtain ⟨hnr, hm1⟩ := out1.rge n hn hm
            have hn2 : n ≤ (appendChild heap1 ref (some r)).length := by
              rw [appendChild_length]
              exact Nat.le_trans hn out1.hlen
            obtain ⟨htail', hm'⟩ := out'.tailge n hn2 hm1
            refine ⟨?_, hm'⟩
            intro rq hrq
            rcases List.mem_cons.mp hrq with heq | hmemt
            · injection heq with h
              rw [h]
              exact hnr
            · exact htail' rq hmemt

/-- `marshalPackage` equation: a memo hit returns the registered reference. -/
theorem marshalPackageF_succ_hit (conv : Conv) (f : Nat) (pkg : WPackage)
    (pkgs : List (String × WPackage)) (memo : Memo) (heap : Heap) (r : Nat)
    (h : List.lookup pkg.Pkg.ID memo = some r) :
    marshalPackageF conv (f + 1) pkg pkgs memo heap = .ok (some r) memo heap := by
  rw [marshalPackageF, h]

/-- `marshalPackage` equation: a fresh package is converted, registered
before the recursion, and its dependencies walked. -/
theorem marshalPackageF_succ_fresh (f : Nat) (pkg : WPackage)
    (pkgs : List (String × WPackage)) (memo : Memo) (heap : Heap)
    (h : List.lookup pkg.Pkg.ID memo = none) :
    marshalPackageF pkgComponentE (f + 1) pkg pkgs memo heap =
      match marshalDepsGo (marshalPackageF pkgComponentE f) pkg.Pkg.DependsOn heap.length pkgs
          ((pkg.Pkg.ID, heap.length) :: memo) (heap ++ [pkgComponent pkg]) with
      | .fuelOut => .fuelOut
      | .fail msg => .fail msg
      | .ok memo'' heap'' => .ok (some heap.length) memo'' heap'' := by
  rw [marshalPackageF, h]
  rfl

/-- Invariant bundle for `marshalPackage` with the shipped conversion
function: every successful call returns a reference carrying the package's
ID, only grows the heap and memo, and keeps every invariant. -/
theorem marshalPackage_spec :
    ∀ (fuel : Nat) (pkg : WPackage) (pkgs : List (String × WPackage))
      (memo : Memo) (heap : Heap),
      GoodPkgs pkgs → pkg.Pkg.ID ≠ "" → MemoOK memo heap → HeapClosed heap →
      marshalPackageF pkgComponentE fuel pkg pkgs memo heap = .fuelOut ∨
      ∃ r memo' heap',
        marshalPackageF pkgComponentE fuel pkg pkgs memo heap = .ok (some r) memo' heap' ∧
        MPOut pkg memo heap r memo' heap' := by
  intro fuel
  induction fuel with
  | zero => intro pkg pkgs memo heap _ _ _ _; left; rfl
  | succ f ih =>
    intro pkg pkgs memo heap hgood hne hmok hhc
    cases hlk : List.lookup pkg.Pkg.ID memo with
    | some r =>
      right
      refine ⟨r, memo, heap,
        marshalPackageF_succ_hit pkgComponentE f pkg pkgs memo heap r hlk, ?_⟩
      obtain ⟨hrlt, hrid⟩ := hmok _ _ hlk
      exact ⟨Nat.le_refl _, fun i _ => rfl, memoSub_refl _, hmok, hhc, hrlt, hrid,
        fun n _ hm => ⟨hm _ _ hlk, hm⟩⟩
    | none =>
      rw [marshalPackageF_succ_fresh f pkg pkgs memo heap hlk]
      have hhcA : HeapClosed (heap ++ [pkgComponent pkg]) :=
        heapClosed_append_nil hhc (pkgComponent_components pkg)
      have hlenA : (heap ++ [pkgComponent pkg]).length = heap.length + 1 := by
        simp
      have hmokA : MemoOK ((pkg.Pkg.ID, heap.length) :: memo) (heap ++ [pkgComponent pkg]) := by
        intro k r hk
        rw [List.lookup] at hk
        by_cases hkid : k = pkg.Pkg.ID
        · subst hkid
          simp only [beq_self_eq_true] at hk
          injection hk with hk'
          rw [← hk']
          refine ⟨by rw [hlenA]; omega, ?_⟩
          rw [refId_concat]
          exact pkgIdOf_pkgComponent pkg hne
        · rw [beq_eq_false_iff_ne.mpr hkid] at hk
          obtain ⟨hlt, hid⟩ := hmok k r hk
          refine ⟨by rw [hlenA]; omega, ?_⟩
          rw [refId_append _ hlt]
          exact hid
      have hrefA : heap.length < (heap ++ [pkgComponent pkg]).length := by
        rw [hlenA]; omega
      rcases marshalDeps_spec f ih pkg.Pkg.DependsOn heap.length pkgs
          ((pkg.Pkg.ID, heap.length) :: memo) (heap ++ [pkgComponent pkg])
          hgood hmokA hhcA hrefA with hfo | ⟨memo', heap', tail, hok, out⟩
      · rw [hfo]; left; rfl
      · rw [hok]
        right
        refine ⟨heap.length, memo', heap', rfl, ?_⟩
        have hlen1 : heap.length ≤ (heap ++ [pkgComponent pkg]).length := by
          rw [hlenA]; omega
        have hcellA : (heap ++ [pkgComponent pkg]).get? heap.length = some (pkgComponent pkg) :=
          List.get?_concat_length heap (pkgComponent pkg)
        refine ⟨Nat.le_trans hlen1 out.hlen, ?_, memoSub_trans (memoSub_cons hlk) out.msub,
          out.mok, out.hc, Nat.lt_of_lt_of_le hrefA out.hlen, ?_, ?_⟩
        · intro i hi
          have hiA : i < (heap ++ [pkgComponent pkg]).length := by rw [hlenA]; omega
          rw [out.presOff i hiA (by omega), get?_append_left _ hi]
        · unfold refId
          rw [out.refCell (pkgComponent pkg) hcellA]
          have hpid := pkgIdOf_pkgComponent pkg hne
          exact hpid
        · intro n hn hm
          refine ⟨hn, ?_⟩
          have hmA : MemoGE n ((pkg.Pkg.ID, heap.length) :: memo) := by
            intro k r hk
            rw [List.lookup] at hk
            by_cases hkid : k = pkg.Pkg.ID
            · subst hkid
              simp only [beq_self_eq_true] at hk
              injection hk with hk'
              omega
            · rw [beq_eq_false_iff_ne.mpr hkid] at hk
              exact hm k r hk
          exact (out.tailge n (Nat.le_trans hn hlen1) hmA).2

/-- Package-loop equation: an unknown key is skipped. -/
theorem mpLoop_cons_none (conv : Conv) (fuel : Nat) (pkgs : List (String × WPackage))
    (parents : String → List String) (k : String) (rest : List String)
    (acc : List (Option Nat)) (heap : Heap) (h : pkgs.lookup k = none) :
    mpLoop conv fuel pkgs parents (k :: rest) acc heap =
      mpLoop conv fuel pkgs parents rest acc heap := by
  rw [mpLoop, h]

/-- Package-loop equation: an indirect package with a parent is skipped. -/
theorem mpLoop_cons_skip (conv : Conv) (fuel : Nat) (pkgs : List (String × WPackage))
    (parents : String → List String) (k : String) (rest : List String)
    (acc : List (Option Nat)) (heap : Heap) (pkg : WPackage)
    (h : pkgs.lookup k = some pkg)
    (hsk : (pkg.Pkg.Indirect && !(parents pkg.Pkg.ID).isEmpty) = true) :
    mpLoop conv fuel pkgs parents (k :: rest) acc heap =
      mpLoop conv fuel pkgs parents rest acc heap := by
  rw [mpLoop, h]
  exact if_pos hsk

/-- Package-loop equation: a candidate root is marshaled from a fresh memo. -/
theorem mpLoop_cons_go (conv : Conv) (fuel : Nat) (pkgs : List (String × WPackage))
    (parents : String → List String) (k : String) (rest : List String)
    (acc : List (Option Nat)) (heap : Heap) (pkg : WPackage)
    (h : pkgs.lookup k = some pkg)
    (hsk : (pkg.Pkg.Indirect && !(parents pkg.Pkg.ID).isEmpty) = false) :
    mpLoop conv fuel pkgs parents (k :: rest) acc heap =
      match marshalPackageF conv fuel pkg pkgs [] heap with
      | .fuelOut => none
      | .fail _ => some ([], heap)
      | .ok comp _ heap' =>
        match comp with
        | some r => mpLoop conv fuel pkgs parents rest (acc ++ [some r]) heap'
        | none => mpLoop conv fuel pkgs parents rest acc heap' := by
  rw [mpLoop, h]
  exact if_neg (by rw [hsk]; exact Bool.false_ne_true)

/-- Characterization of the package loop: it always succeeds, appends to
the accumulator one fresh root per surviving candidate (in iteration
order), preserves existing cells, realizes the candidate-root function on
the recorded IDs, gives every non-skipped key a root holding all its
resolvable dependencies as children, and keeps the children of distinct
roots disjoint (the memo map is created afresh per root, so nothing is
shared across roots). -/
theorem mpLoop_spec (fuel : Nat) (pkgs : List (String × WPackage))
    (parents : String → List String)
    (hgood : GoodPkgs pkgs) (hfuel : pkgs.length + 1 ≤ fuel) :
    ∀ (order : List String) (acc : List (Option Nat)) (heap : Heap), HeapClosed heap →
      ∃ extra heap',
        mpLoop pkgComponentE fuel pkgs parents order acc heap = some (acc ++ extra, heap') ∧
        heap.length ≤ heap'.length ∧
        (∀ i, i < heap.length → heap'.get? i = heap.get? i) ∧
        HeapClosed heap' ∧
        (extra.map (fun x => x.bind (refId heap')) = order.filterMap (rootCand pkgs parents)) ∧
        (∀ k, k ∈ order → ∀ pkg, pkgs.lookup k = some pkg →
          (pkg.Pkg.Indirect && !(parents pkg.Pkg.ID).isEmpty) = false →
          ∃ r, RootOf pkgs heap.length heap' pkg extra r) ∧
        (∀ k1 k2, k1 ∈ order → k2 ∈ order → k1 ≠ k2 →
          ∀ pkg1 pkg2, pkgs.lookup k1 = some pkg1 → pkgs.lookup k2 = some pkg2 →
          (pkg1.Pkg.Indirect && !(parents pkg1.Pkg.ID).isEmpty) = false →
          (pkg2.Pkg.Indirect && !(parents pkg2.Pkg.ID).isEmpty) = false →
          ∃ r1 r2, RootOf pkgs heap.length heap' pkg1 extra r1 ∧
            RootOf pkgs heap.length heap' pkg2 extra r2 ∧ r1 ≠ r2 ∧
            (∀ x y : Nat, (some x) ∈ childrenOf heap' r1 →
              (some y) ∈ childrenOf heap' r2 → x ≠ y)) := by
  intro order
  induction order with
  | nil =>
    intro acc heap hhc
    refine ⟨[], heap, by rw [mpLoop]; simp, Nat.le_refl _, fun i _ => rfl, hhc, by simp, ?_, ?_⟩
    · intro k hk; cases hk
    · intro k1 k2 hk1; cases hk1
  | cons k rest ih =>
    intro acc heap hhc
    cases hl : pkgs.lookup k with
    | none =>
      obtain ⟨extra, heap', hrun, hle, hpres, hhc', hmap, hroots, hdisj⟩ := ih acc heap hhc
      have hcand : rootCand pkgs parents k = none := by
        unfold rootCand; rw [hl]
      refine ⟨extra, heap',
        by rw [mpLoop_cons_none pkgComponentE fuel pkgs parents k rest acc heap hl]; exact hrun,
        hle, hpres, hhc', ?_, ?_, ?_⟩
      · rw [List.filterMap_cons_none hcand]; exact hmap
      · intro k' hk' pkg' hl' hsk'
        rcases List.mem_cons.mp hk' with rfl | hk''
        · rw [hl] at hl'; cases hl'
        · exact hroots k' hk'' pkg' hl' hsk'
      · intro k1 k2 hk1 hk2 hne12 pkg1 pkg2 hl1 hl2 hs1 hs2
        rcases List.mem_cons.mp hk1 with rfl | hk1'
        · rw [hl] at hl1; cases hl1
        · rcases List.mem_cons.mp hk2 with rfl | hk2'
          · rw [hl] at hl2; cases hl2
          · exact hdisj k1 k2 hk1' hk2' hne12 pkg1 pkg2 hl1 hl2 hs1 hs2
    | some pkg =>
      by_cases hsk : (pkg.Pkg.Indirect && !(parents pkg.Pkg.ID).isEmpty) = true
      · obtain ⟨extra, heap', hrun, hle, hpres, hhc', hmap, hroots, hdisj⟩ := ih acc heap hhc
        have hcand : rootCand pkgs parents k = none := by
          simp only [rootCand, hl, hsk, if_true]
        refine ⟨extra, heap',
          by rw [mpLoop_cons_skip pkgComponentE fuel pkgs parents k rest acc heap pkg hl hsk];
             exact hrun,
          hle, hpres, hhc', ?_, ?_, ?_⟩
        · rw [List.filterMap_cons_none hcand]; exact hmap
        · intro k' hk' pkg' hl' hsk'
          rcases List.mem_cons.mp hk' with rfl | hk''
          · rw [hl] at hl'
            injection hl' with he
            rw [he] at hsk
            rw [hsk'] at hsk
            cases hsk
          · exact hroots k' hk'' pkg' hl' hsk'
        · intro k1 k2 hk1 hk2 hne12 pkg1 pkg2 hl1 hl2 hs1 hs2
          rcases List.mem_cons.mp hk1 with rfl | hk1'
          · rw [hl] at hl1
            injection hl1 with he
            rw [he] at hsk
            rw [hs1] at hsk
            cases hsk
          · rcases List.mem_cons.mp hk2 with rfl | hk2'
            · rw [hl] at hl2
              injection hl2 with he
              rw [he] at hsk
              rw [hs2] at hsk
              cases hsk
            · exact hdisj k1 k2 hk1' hk2' hne12 pkg1 pkg2 hl1 hl2 hs1 hs2
      · have hskF : (pkg.Pkg.Indirect && !(parents pkg.Pkg.ID).isEmpty) = false := by
          cases hb : (pkg.Pkg.Indirect && !(parents pkg.Pkg.ID).isEmpty)
          · rfl
          · exact absurd hb hsk
        cases fuel with
        | zero => exact absurd hfuel (by omega)
        | succ f =>
          have hneid : pkg.Pkg.ID ≠ "" := hgood (k, pkg) (lookup_mem hl)
          have hccomp := pkgComponent_components pkg
          have hhcA : HeapClosed (heap ++ [pkgComponent pkg]) :=
            heapClosed_append_nil hhc hccomp
          have hlenA : (heap ++ [pkgComponent pkg]).length = heap.length + 1 := by simp
          have hmokA : MemoOK [(pkg.Pkg.ID, heap.length)] (heap ++ [pkgComponent pkg]) := by
            intro k' r hk'
            rw [List.lookup] at hk'
            by_cases hkid : k' = pkg.Pkg.ID
            · subst hkid
              simp only [beq_self_eq_true] at hk'
              injection hk' with hk''
              rw [← hk'']
              refine ⟨by omega, ?_⟩
              rw [refId_concat]
              exact pkgIdOf_pkgComponent pkg hneid
            · rw [beq_eq_false_iff_ne.mpr hkid] at hk'
              cases hk'
          have hrefA : heap.length < (heap ++ [pkgComponent pkg]).length := by omega
          rcases marshalDeps_spec f (marshalPackage_spec f) pkg.Pkg.DependsOn heap.length pkgs
              [(pkg.Pkg.ID, heap.length)] (heap ++ [pkgComponent pkg])
              hgood hmokA hhcA hrefA with hfo | ⟨memoB, heapB, tailB, hokB, outB⟩
          · exfalso
            have hne_fo := marshalPackageF_fuel pkgComponentE (f + 1) pkg pkgs [] heap
              ⟨k, hl⟩ (Nat.le_trans (Nat.succ_le_succ (unvisited_le pkgs [])) hfuel)
            apply hne_fo
            rw [marshalPackageF_succ_fresh f pkg pkgs [] heap rfl, hfo]
          · have hPrun : marshalPackageF pkgComponentE (f + 1) pkg pkgs [] heap =
                .ok (some heap.length) memoB heapB := by
              rw [marshalPackageF_succ_fresh f pkg pkgs [] heap rfl, hokB]
            obtain ⟨extra', heap', hrun', hle', hpres', hhc', hmap', hroots', hdisj'⟩ :=
              ih (acc ++ [some heap.length]) heapB outB.hc
            -- facts about the head root
            have hlenB : heap.length < heapB.length := Nat.lt_of_lt_of_le hrefA outB.hlen
            have hcellA : (heap ++ [pkgComponent pkg]).get? heap.length =
                some (pkgComponent pkg) := List.get?_concat_length heap (pkgComponent pkg)
            have hcellB := outB.refCell (pkgComponent pkg) hcellA
            have hchB : childrenOf heapB heap.length = tailB := by
              unfold childrenOf
              rw [hcellB]
              simp [hccomp]
            have hidB : refId heapB heap.length = some pkg.Pkg.ID := by
              unfold refId
              rw [hcellB]
              exact pkgIdOf_pkgComponent pkg hneid
            have htail_hi : ∀ rq : Nat, (some rq) ∈ tailB → rq < heapB.length := by
              intro rq hrq
              have hmemB : ({ pkgComponent pkg with
                  Components := (pkgComponent pkg).Components ++ tailB } : CompData) ∈ heapB :=
                List.get?_mem hcellB
              refine outB.hc _ hmemB (some rq) ?_ rq rfl
              rw [hccomp]
              simpa using hrq
            have htail_lo : ∀ rq : Nat, (some rq) ∈ tailB → heap.length ≤ rq := by
              have hmge : MemoGE heap.length [(pkg.Pkg.ID, heap.length)] := by
                intro k' r hk'
                rw [List.lookup] at hk'
                by_cases hkid : k' = pkg.Pkg.ID
                · subst hkid
                  simp only [beq_self_eq_true] at hk'
                  injection hk' with hk''
                  omega
                · rw [beq_eq_false_iff_ne.mpr hkid] at hk'
                  cases hk'
              exact (outB.tailge heap.length (by omega) hmge).1
            -- children and id of the head root survive the rest of the loop
            have hcell' : heap'.get? heap.length = heapB.get? heap.length :=
              hpres' heap.length hlenB
            have hch' : childrenOf heap' heap.length = tailB := by
              unfold childrenOf at hchB ⊢
              rw [hcell']
              exact hchB
            have hid' : refId heap' heap.length = some pkg.Pkg.ID := by
              unfold refId at hidB ⊢
              rw [hcell']
              exact hidB
            have hrootHead : RootOf pkgs heap.length heap' pkg
                (some heap.length :: extra') heap.length := by
              refine ⟨List.mem_cons_self _ _, Nat.le_refl _,
                Nat.lt_of_lt_of_le hlenB hle', hid', ?_, ?_⟩
              · intro rq hrq
                rw [hch'] at hrq
                exact ⟨htail_lo rq hrq, Nat.lt_of_lt_of_le (htail_hi rq hrq) hle'⟩
              · intro d q hd hq
                rcases outB.depsMem d q hd hq with ⟨rq, hmemt, hidq⟩
                refine ⟨rq, by rw [hch']; exact hmemt, ?_⟩
                unfold refId at hidq ⊢
                rw [hpres' rq (htail_hi rq hmemt)]
                exact hidq
            have hheadch_hi : ∀ x : Nat, (some x) ∈ childrenOf heap' heap.length →
                x < heapB.length := by
              intro x hx
              rw [hch'] at hx
              exact htail_hi x hx
            refine ⟨some heap.length :: extra', heap', ?_, ?_, ?_, hhc', ?_, ?_, ?_⟩
            · rw [mpLoop_cons_go pkgComponentE (f + 1) pkgs parents k rest acc heap pkg hl hskF]
              simp only [hPrun]
              rw [hrun']
              simp
            · omega
            · intro i hi
              rw [hpres' i (by omega)]
              have hiA : i < (heap ++ [pkgComponent pkg]).length := by omega
              rw [outB.presOff i hiA (by omega), get?_append_left _ hi]
            · have hcand : rootCand pkgs parents k = some (some pkg.Pkg.ID) := by
                simp only [rootCand, hl, hskF, Bool.false_eq_true, if_false]
              rw [List.filterMap_cons_some hcand, List.map_cons]
              rw [hmap']
              simp only [Option.bind]
              rw [hid']
            · intro k' hk' pkg' hl' hsk'
              rcases List.mem_cons.mp hk' with rfl | hk''
              · rw [hl] at hl'
                injection hl' with he
                rw [← he]
                exact ⟨heap.length, hrootHead⟩
              · rcases hroots' k' hk'' pkg' hl' hsk' with ⟨r, hr⟩
                exact ⟨r, rootOf_weaken hr (Nat.le_of_lt hlenB)
                  (fun x hx => List.mem_cons_of_mem _ hx)⟩
            · intro k1 k2 hk1 hk2 hne12 pkg1 pkg2 hl1 hl2 hs1 hs2
              rcases List.mem_cons.mp hk1 with rfl | hk1'
              · -- k1 is the head
                rw [hl] at hl1
                injection hl1 with he1
                have hk2' : k2 ∈ rest := by
                  rcases List.mem_cons.mp hk2 with rfl | h
                  · exact absurd rfl hne12
                  · exact h
                rcases hroots' k2 hk2' pkg2 hl2 hs2 with ⟨r2, hr2⟩
                refine ⟨heap.length, r2, by rw [← he1]; exact hrootHead,
                  rootOf_weaken hr2 (Nat.le_of_lt hlenB)
                    (fun x hx => List.mem_cons_of_mem _ hx), ?_, ?_⟩
                · have : heapB.length ≤ r2 := hr2.2.1
                  omega
                · intro x y hx hy
                  have hxlt := hheadch_hi x hx
                  have hyge : heapB.length ≤ y := (hr2.2.2.2.2.1 y hy).1
                  omega
              · rcases List.mem_cons.mp hk2 with rfl | hk2'
                · -- k2 is the head
                  rw [hl] at hl2
                  injection hl2 with he2
                  rcases hroots' k1 hk1' pkg1 hl1 hs1 with ⟨r1, hr1⟩
                  refine ⟨r1, heap.length,
                    rootOf_weaken hr1 (Nat.le_of_lt hlenB)
                      (fun x hx => List.mem_cons_of_mem _ hx),
                    by rw [← he2]; exact hrootHead, ?_, ?_⟩
                  · have : heapB.length ≤ r1 := hr1.2.1
                    omega
                  · intro x y hx hy
                    have hylt := hheadch_hi y hy
                    have hxge : heapB.length ≤ x := (hr1.2.2.2.2.1 x hx).1
                    omega
                · rcases hdisj' k1 k2 hk1' hk2' hne12 pkg1 pkg2 hl1 hl2 hs1 hs2 with
                    ⟨r1, r2, hr1, hr2, hne, hdj⟩
                  exact ⟨r1, r2,
                    rootOf_weaken hr1 (Nat.le_of_lt hlenB)
                      (fun x hx => List.mem_cons_of_mem _ hx),
                    rootOf_weaken hr2 (Nat.le_of_lt hlenB)
                      (fun x hx => List.mem_cons_of_mem _ hx), hne, hdj⟩

/-- A key that looks up to a non-skipped package is a root candidate
recording that package's ID. -/
theorem rootCand_lookup {pkgs : List (String × WPackage)}
    {parents : String → List String} {k : String} {pkg : WPackage}
    (hl : pkgs.lookup k = some pkg)
    (hsk : (pkg.Pkg.Indirect && !(parents pkg.Pkg.ID).isEmpty) = false) :
    rootCand pkgs parents k = some (some pkg.Pkg.ID) := by
  simp only [rootCand, hl, hsk, Bool.false_eq_true, if_false]

/-- Inversion: a root candidate comes from a non-skipped looked-up package. -/
theorem rootCand_inv {pkgs : List (String × WPackage)}
    {parents : String → List String} {k : String} {v : Option String}
    (h : rootCand pkgs parents k = some v) :
    ∃ pkg, pkgs.lookup k = some pkg ∧
      (pkg.Pkg.Indirect && !(parents pkg.Pkg.ID).isEmpty) = false ∧
      v = some pkg.Pkg.ID := by
  unfold rootCand at h
  cases hl : pkgs.lookup k with
  | none => rw [hl] at h; cases h
  | some pkg =>
    simp only [hl] at h
    cases hsk : (pkg.Pkg.Indirect && !(parents pkg.Pkg.ID).isEmpty) with
    | true => rw [if_pos hsk] at h; cases h
    | false =>
      rw [if_neg (by rw [hsk]; exact Bool.false_ne_true)] at h
      injection h with hv
      exact ⟨pkg, rfl, hsk, hv.symm⟩

/-- The loop characterization transported to `marshalPackages` on a run
that actually happened: the recorded root IDs are the candidate IDs in
iteration order, every non-skipped package owns a root, and the children
of two distinct packages' roots are disjoint. -/
theorem marshalPackages_spec (metadata : Metadata) (result : Result) (order : List String)
    (heap : Heap) (hids : IDsOK result) (hhc : HeapClosed heap)
    {roots : List (Option Nat)} {heap' : Heap}
    (hrun : marshalPackages metadata result order heap = some (roots, heap')) :
    (roots.map (fun x => x.bind (refId heap')) =
      order.filterMap (rootCand (pkgMapOf metadata result) (ParentDeps result.Packages))) ∧
    (∀ k ∈ order, ∀ pkg, (pkgMapOf metadata result).lookup k = some pkg →
      (pkg.Pkg.Indirect && !(ParentDeps result.Packages pkg.Pkg.ID).isEmpty) = false →
      ∃ r, RootOf (pkgMapOf metadata result) heap.length heap' pkg roots r) ∧
    (∀ k1 k2, k1 ∈ order → k2 ∈ order → k1 ≠ k2 →
      ∀ pkg1 pkg2, (pkgMapOf metadata result).lookup k1 = some pkg1 →
        (pkgMapOf metadata result).lookup k2 = some pkg2 →
        (pkg1.Pkg.Indirect && !(ParentDeps result.Packages pkg1.Pkg.ID).isEmpty) = false →
        (pkg2.Pkg.Indirect && !(ParentDeps result.Packages pkg2.Pkg.ID).isEmpty) = false →
        ∃ r1 r2, RootOf (pkgMapOf metadata result) heap.length heap' pkg1 roots r1 ∧
          RootOf (pkgMapOf metadata result) heap.length heap' pkg2 roots r2 ∧ r1 ≠ r2 ∧
          (∀ x y : Nat, (some x) ∈ childrenOf heap' r1 →
            (some y) ∈ childrenOf heap' r2 → x ≠ y)) := by
  obtain ⟨extra, heap2, hrun2, hle, hpres, hhc2, hmap, hroots, hdisj⟩ :=
    mpLoop_spec (result.Packages.length + 1) (pkgMapOf metadata result)
      (ParentDeps result.Packages) (pkgMapOf_good metadata result hids)
      (Nat.succ_le_succ (pkgMapOf_length_le metadata result)) order [] heap hhc
  unfold marshalPackages marshalPackagesF at hrun
  rw [hrun2] at hrun
  simp only [List.nil_append, Option.some.injEq, Prod.mk.injEq] at hrun
  obtain ⟨hre, hhe⟩ := hrun
  subst hre
  subst hhe
  exact ⟨hmap, hroots, hdisj⟩

/-- C3 amended: for a result with non-empty, pairwise-distinct package IDs
and an iteration order covering exactly the package IDs, a package's ID is
recorded among the root-level components of the result's forest if and
only if it is NOT the case that the package is indirect and SOME package
of the result (possibly the package itself, via a self-dependency) lists
its ID in `DependsOn`.  The claim's "some other package" is wrong: a
self-declared dependency also suppresses the root. -/
theorem c3_amended (metadata : Metadata) (result : Result) (order : List String)
    (heap : Heap) (hids : IDsOK result) (hhc : HeapClosed heap)
    (hord : order.Perm (result.Packages.map Package.ID))
    {p : Package} (hp : p ∈ result.Packages)
    {roots : List (Option Nat)} {heap' : Heap}
    (hrun : marshalPackages metadata result order heap = some (roots, heap')) :
    ((some p.ID) ∈ roots.map (fun x => x.bind (refId heap')) ↔
      ¬(p.Indirect = true ∧ ParentDeps result.Packages p.ID ≠ [])) := by
  obtain ⟨hmap, -, -⟩ := marshalPackages_spec metadata result order heap hids hhc hrun
  rw [hmap]
  constructor
  · intro hmem
    rcases List.mem_filterMap.mp hmem with ⟨k, hk, hcand⟩
    rcases rootCand_inv hcand with ⟨pkg, hl, hsk, hv⟩
    rcases pkgMapOf_lookup_inv metadata result hids hl with ⟨hpkmem, hkid, hwrap⟩
    injection hv with hid
    have hpe : pkg.Pkg = p := nodup_id_inj hids.2 hpkmem hp hid.symm
    rw [← hpe]
    exact (skip_false_iff pkg (ParentDeps result.Packages)).mp hsk
  · intro hns
    apply List.mem_filterMap.mpr
    refine ⟨p.ID, hord.mem_iff.mpr (List.mem_map_of_mem Package.ID hp), ?_⟩
    have hl := pkgMapOf_lookup metadata result hids hp
    have hsk : ((wrapOf metadata result p).Pkg.Indirect &&
        !(ParentDeps result.Packages (wrapOf metadata result p).Pkg.ID).isEmpty) = false :=
      (skip_false_iff (wrapOf metadata result p) (ParentDeps result.Packages)).mpr hns
    exact rootCand_lookup hl hsk

/-- Witness for C3 amended: the indirect package `s` declares itself in its
own `DependsOn`, no other package mentions it, and it is suppressed from
the roots — the run yields no root at all. -/
theorem c3_amended_witness :
    ((some pkgSelf.ID) ∈ ([] : List (Option Nat)).map (fun x => x.bind (refId ([] : Heap))) ↔
      ¬(pkgSelf.Indirect = true ∧ ParentDeps selfLoopResult.Packages pkgSelf.ID ≠ [])) :=
  c3_amended {} selfLoopResult ["s"] [] ⟨by decide, by decide⟩
    (fun c hc => absurd hc (List.not_mem_nil c)) (by decide)
    (show pkgSelf ∈ selfLoopResult.Packages by decide)
    (show marshalPackages {} selfLoopResult ["s"] [] = some ([], []) by decide)

/-- C9 amended: `MarshalReport` is NOT deterministic — the Go map iteration
order over a result's packages changes the children order (the concrete
counterexample shows two orders giving different graphs) — but the root
set is stable up to permutation: two runs over orders that are both
permutations of the package IDs record permuted root-ID lists. -/
theorem c9_amended (metadata : Metadata) (result : Result) (o1 o2 : List String)
    (heap : Heap) (hids : IDsOK result) (hhc : HeapClosed heap)
    (h1 : o1.Perm (result.Packages.map Package.ID))
    (h2 : o2.Perm (result.Packages.map Package.ID))
    {roots1 roots2 : List (Option Nat)} {heap1 heap2 : Heap}
    (hr1 : marshalPackages metadata result o1 heap = some (roots1, heap1))
    (hr2 : marshalPackages metadata result o2 heap = some (roots2, heap2)) :
    (roots1.map (fun x => x.bind (refId heap1))).Perm
      (roots2.map (fun x => x.bind (refId heap2))) := by
  obtain ⟨hmap1, -, -⟩ := marshalPackages_spec metadata result o1 heap hids hhc hr1
  obtain ⟨hmap2, -, -⟩ := marshalPackages_spec metadata result o2 heap hids hhc hr2
  rw [hmap1, hmap2]
  exact (h1.trans h2.symm).filterMap _

/-- Witness for C9 amended: the two-package floating result built in the
orders `x, y` and `y, x` records the same root IDs up to permutation. -/
theorem c9_amended_witness :
    (([some 0, some 1] : List (Option Nat)).map (fun x => x.bind (refId
        [pkgComponent (wrapOf {} nodeResult pkgX), pkgComponent (wrapOf {} nodeResult pkgY)]))).Perm
      (([some 0, some 1] : List (Option Nat)).map (fun x => x.bind (refId
        [pkgComponent (wrapOf {} nodeResult pkgY), pkgComponent (wrapOf {} nodeResult pkgX)]))) :=
  c9_amended {} nodeResult ["x", "y"] ["y", "x"] [] ⟨by decide, by decide⟩
    (fun c hc => absurd hc (List.not_mem_nil c)) (by decide) (by decide)
    (show marshalPackages {} nodeResult ["x", "y"] [] = some ([some 0, some 1],
      [pkgComponent (wrapOf {} nodeResult pkgX), pkgComponent (wrapOf {} nodeResult pkgY)])
      by decide)
    (show marshalPackages {} nodeResult ["y", "x"] [] = some ([some 0, some 1],
      [pkgComponent (wrapOf {} nodeResult pkgY), pkgComponent (wrapOf {} nodeResult pkgX)])
      by decide)

/-- C1 amended: the builder does NOT share the dependency's component
across parents — the memo map is created afresh for each candidate root,
so when two distinct direct packages `A` and `B` of the same result both
depend on `P`, the built heap holds two DIFFERENT component instances for
`P`, one under `A`'s root and one under `B`'s root (identity inequality of
the heap cells, even though they are structurally equal). -/
theorem c1_amended (metadata : Metadata) (result : Result) (order : List String)
    (heap : Heap) (hids : IDsOK result) (hhc : HeapClosed heap)
    (hord : order.Perm (result.Packages.map Package.ID))
    {A B P : Package} (hA : A ∈ result.Packages) (hB : B ∈ result.Packages)
    (hP : P ∈ result.Packages) (hAB : A.ID ≠ B.ID)
    (hdA : P.ID ∈ A.DependsOn) (hdB : P.ID ∈ B.DependsOn)
    (hskA : ¬(A.Indirect = true ∧ ParentDeps result.Packages A.ID ≠ []))
    (hskB : ¬(B.Indirect = true ∧ ParentDeps result.Packages B.ID ≠ []))
    {roots : List (Option Nat)} {heap' : Heap}
    (hrun : marshalPackages metadata result order heap = some (roots, heap')) :
    ∃ rA rB pA pB : Nat,
      (some rA) ∈ roots ∧ (some rB) ∈ roots ∧
      refId heap' rA = some A.ID ∧ refId heap' rB = some B.ID ∧ rA ≠ rB ∧
      (some pA) ∈ childrenOf heap' rA ∧ (some pB) ∈ childrenOf heap' rB ∧
      refId heap' pA = some P.ID ∧ refId heap' pB = some P.ID ∧
      pA ≠ pB := by
  obtain ⟨-, -, hdisj⟩ := marshalPackages_spec metadata result order heap hids hhc hrun
  have hAin : A.ID ∈ order := hord.mem_iff.mpr (List.mem_map_of_mem Package.ID hA)
  have hBin : B.ID ∈ order := hord.mem_iff.mpr (List.mem_map_of_mem Package.ID hB)
  have hlA := pkgMapOf_lookup metadata result hids hA
  have hlB := pkgMapOf_lookup metadata result hids hB
  have hlP := pkgMapOf_lookup metadata result hids hP
  have hsA : ((wrapOf metadata result A).Pkg.Indirect &&
      !(ParentDeps result.Packages (wrapOf metadata result A).Pkg.ID).isEmpty) = false :=
    (skip_false_iff (wrapOf metadata result A) (ParentDeps result.Packages)).mpr hskA
  have hsB : ((wrapOf metadata result B).Pkg.Indirect &&
      !(ParentDeps result.Packages (wrapOf metadata result B).Pkg.ID).isEmpty) = false :=
    (skip_false_iff (wrapOf metadata result B) (ParentDeps result.Packages)).mpr hskB
  rcases hdisj A.ID B.ID hAin hBin hAB (wrapOf metadata result A) (wrapOf metadata result B)
      hlA hlB hsA hsB with ⟨r1, r2, hr1, hr2, hne, hdj⟩
  obtain ⟨hr1mem, -, -, hr1id, -, hr1dep⟩ := hr1
  obtain ⟨hr2mem, -, -, hr2id, -, hr2dep⟩ := hr2
  rcases hr1dep P.ID (wrapOf metadata result P) hdA hlP with ⟨pA', hpAmem, hpAid⟩
  rcases hr2dep P.ID (wrapOf metadata result P) hdB hlP with ⟨pB', hpBmem, hpBid⟩
  exact ⟨r1, r2, pA', pB', hr1mem, hr2mem, hr1id, hr2id, hne,
    hpAmem, hpBmem, hpAid, hpBid, hdj pA' pB' hpAmem hpBmem⟩

/-- Witness for C1 amended: on the shared-dependency result (`a` and `b`
both depend on `p`), the run with order `a, b, p` yields two distinct root
cells for `a` and `b` whose child references for `p` are two different
heap cells. -/
theorem c1_amended_witness :
    ∃ rA rB pA pB : Nat,
      (some rA) ∈ ([some 0, some 2] : List (Option Nat)) ∧
      (some rB) ∈ ([some 0, some 2] : List (Option Nat)) ∧
      refId (sharedDepPkgHeap) rA = some pkgA.ID ∧
      refId (sharedDepPkgHeap) rB = some pkgB.ID ∧ rA ≠ rB ∧
      (some pA) ∈ childrenOf (sharedDepPkgHeap) rA ∧
      (some pB) ∈ childrenOf (sharedDepPkgHeap) rB ∧
      refId (sharedDepPkgHeap) pA = some pkgP.ID ∧
      refId (sharedDepPkgHeap) pB = some pkgP.ID ∧
      pA ≠ pB :=
  c1_amended {} sharedDepResult ["a", "b", "p"] [] ⟨by decide, by decide⟩
    (fun c hc => absurd hc (List.not_mem_nil c)) (by decide)
    (show pkgA ∈ sharedDepResult.Packages by decide)
    (show pkgB ∈ sharedDepResult.Packages by decide)
    (show pkgP ∈ sharedDepResult.Packages by decide)
    (by decide) (by decide) (by decide) (by decide) (by decide)
    (show marshalPackages {} sharedDepResult ["a", "b", "p"] [] =
      some ([some 0, some 2], sharedDepPkgHeap) by decide)
